import Mathlib

set_option maxRecDepth 8000
set_option maxHeartbeats 1000000

/-!
Verification development for the CA-legislature resume RAG pipeline
(`app/ingestion/chunker.py`, `app/ingestion/sanitizer.py`,
`app/ingestion/vector_store.py`, `app/ingestion/loaders.py`,
`app/retrieval/rag.py`).

Python strings are modeled as `List Char` (`Str`), restricted to the ASCII
texts the pipeline handles; line splitting is modeled for `'\n'` newlines,
which is the only newline the pipeline itself produces.  Loops are
translated either structurally or with an explicit fuel argument that is
always at least the loop's iteration count, so that every definition is
executable by kernel reduction.
-/

/-- Python `str` modeled as a list of characters. -/
abbrev Str := List Char

/-- Python whitespace (`str.strip` default set / regex `\s`), ASCII part. -/
def pyWS (c : Char) : Bool :=
  c = ' ' || c = '\t' || c = '\n' || c = '\r' || c = '\x0b' || c = '\x0c'

/-- Python `str.lstrip()`. -/
def lstripL (s : Str) : Str := s.dropWhile pyWS

/-- Python `str.rstrip()` (structural form: drop trailing whitespace). -/
def rstripL : Str → Str
  | [] => []
  | c :: rest =>
    let r := rstripL rest
    if r.isEmpty && pyWS c then [] else c :: r

/-- Python `str.strip()`. -/
def stripL (s : Str) : Str := lstripL (rstripL s)

/-- Python `"\n".join(...)` / `sep.join(...)` over modeled strings. -/
def joinL (sep : Str) : List Str → Str
  | [] => []
  | [x] => x
  | x :: rest => x ++ sep ++ joinL sep rest

/-- Helper for `splitlinesL`: accumulate the current line (reversed). -/
def splitNlAux : Str → Str → List Str
  | [], cur => [cur.reverse]
  | '\n' :: rest, cur => cur.reverse :: splitNlAux rest []
  | c :: rest, cur => splitNlAux rest (c :: cur)

/-- Python `str.splitlines()` for `'\n'`-terminated text: the empty string
gives `[]`, and a trailing newline does not produce a final empty line. -/
def splitlinesL (s : Str) : List Str :=
  if s.isEmpty then []
  else
    let parts := splitNlAux s []
    if s.getLast? = some '\n' then parts.dropLast else parts

/-- Index of the first occurrence of `sep` in `s` (`str.find`), if any. -/
def findOcc (sep : Str) : Str → Option Nat
  | [] => if sep.isEmpty then some 0 else none
  | c :: rest =>
    if sep.isPrefixOf (c :: rest) then some 0
    else (findOcc sep rest).map (· + 1)

/-- Fueled worker for `pySplit`; each step consumes at least one character,
so fuel `s.length + 1` always suffices. -/
def pySplitAux (sep : Str) : Nat → Str → List Str
  | 0, s => [s]
  | fuel + 1, s =>
    match findOcc sep s with
    | none => [s]
    | some i => s.take i :: pySplitAux sep fuel (s.drop (i + sep.length))

/-- Python `text.split(sep)` for nonempty `sep` (the code only calls it with
nonempty separators; Python raises on an empty separator). -/
def pySplit (sep : Str) (s : Str) : List Str :=
  if sep.isEmpty then [s] else pySplitAux sep (s.length + 1) s

/-! ## Chunker (`app/ingestion/chunker.py`) -/

/-- chunker.py line 5. -/
def DEFAULT_CHUNK_SIZE : Nat := 800

/-- chunker.py line 6. -/
def DEFAULT_CHUNK_OVERLAP : Nat := 100

/-- The `for part in parts` accumulation loop of `_recursive_split`
(chunker.py lines 21-35), including the final
`if current.strip(): chunks.append(current.strip())`.
State: remaining parts, `current`, accumulated `chunks`.
`max(0, len(current) - overlap)` is `Nat` subtraction. -/
def accumParts (sep : Str) (chunkSize overlap : Nat) :
    List Str → Str → List Str → List Str
  | [], current, chunks =>
    if (stripL current).isEmpty then chunks else chunks ++ [stripL current]
  | part :: rest, current, chunks =>
    let piece := if sep = ['\n'] || sep = [' '] then part else part ++ sep
    if current.length + piece.length ≤ chunkSize then
      accumParts sep chunkSize overlap rest (current ++ piece) chunks
    else
      let chunks' :=
        if (stripL current).isEmpty then chunks else chunks ++ [stripL current]
      accumParts sep chunkSize overlap rest
        (current.drop (current.length - overlap) ++ piece) chunks'

/-- Fueled translation of the character fallback loop
`for i in range(0, len(text), chunk_size - overlap)` (chunker.py lines 38-42):
window `text[i : i + chunk_size]`, stripped, kept when nonempty.  Fuel
`t.length` suffices because each step drops `step ≥ 1` characters. -/
def charWindowsAux (chunkSize step : Nat) : Nat → Str → List Str
  | 0, _ => []
  | _, [] => []
  | fuel + 1, t =>
    let c := stripL (t.take chunkSize)
    let rest := charWindowsAux chunkSize step fuel (t.drop step)
    if c.isEmpty then rest else c :: rest

/-- The character fallback of `_recursive_split` (chunker.py lines 37-43).
When `chunk_size - overlap = 0` Python's `range` raises `ValueError`; that
case (excluded by every claim's `overlap < size` hypothesis) is modeled as
`[]`. -/
def charFallbackSplit (text : Str) (chunkSize overlap : Nat) : List Str :=
  let step := chunkSize - overlap
  if step = 0 then [] else charWindowsAux chunkSize step text.length text

/-- `_recursive_split` (chunker.py lines 9-43).  Note that the source only
ever consults `separators[0]`: when that separator does not occur, control
falls through directly to the character fallback. -/
def _recursive_split (text : Str) (separators : List Str)
    (chunkSize overlap : Nat) : List Str :=
  if (stripL text).isEmpty then []
  else if text.length ≤ chunkSize then [stripL text]
  else
    let sep := separators.headD []
    if !sep.isEmpty then
      let parts := pySplit sep text
      if parts.length > 1 then accumParts sep chunkSize overlap parts [] []
      else charFallbackSplit text chunkSize overlap
    else charFallbackSplit text chunkSize overlap

/-- `chunk_text` (chunker.py lines 46-53). -/
def chunk_text (text : Str) (chunkSize : Nat := DEFAULT_CHUNK_SIZE)
    (overlap : Nat := DEFAULT_CHUNK_OVERLAP) : List Str :=
  _recursive_split text [['\n', '\n'], ['\n'], ['.', ' '], [' '], []]
    chunkSize overlap

/-- Re-joining chunks while ignoring the overlapping prefix of each chunk
after the first (the spec's "chunk coverage" reading). -/
def rejoinOverlap (overlap : Nat) : List Str → Str
  | [] => []
  | c :: rest => c ++ (rest.map (List.drop overlap)).flatten

/-! ### Basic string lemmas -/

theorem rstripL_eq_self_of_no_ws {t : Str} (h : ∀ c ∈ t, pyWS c = false) :
    rstripL t = t := by
  induction t with
  | nil => rfl
  | cons c rest ih =>
    have hc : pyWS c = false := h c (List.mem_cons_self ..)
    have hr : rstripL rest = rest :=
      ih (fun d hd => h d (List.mem_cons_of_mem _ hd))
    simp [rstripL, hr, hc]

theorem lstripL_eq_self_of_no_ws {t : Str} (h : ∀ c ∈ t, pyWS c = false) :
    lstripL t = t := by
  cases t with
  | nil => rfl
  | cons c rest =>
    have hc : pyWS c = false := h c (List.mem_cons_self ..)
    simp [lstripL, List.dropWhile_cons, hc]

theorem stripL_eq_self_of_no_ws {t : Str} (h : ∀ c ∈ t, pyWS c = false) :
    stripL t = t := by
  rw [stripL, rstripL_eq_self_of_no_ws h, lstripL_eq_self_of_no_ws h]

theorem findOcc_eq_none_of_not_mem {a : Char} {s' : Str} {t : Str}
    (h : ∀ c ∈ t, c ≠ a) : findOcc (a :: s') t = none := by
  induction t with
  | nil => simp [findOcc]
  | cons c rest ih =>
    have hc : c ≠ a := h c (List.mem_cons_self ..)
    have hr := ih (fun d hd => h d (List.mem_cons_of_mem _ hd))
    simp [findOcc, List.isPrefixOf, hr]
    intro hac
    exact absurd hac.symm hc

theorem pySplit_eq_single {sep t : Str} (hsep : sep ≠ [])
    (h : findOcc sep t = none) : pySplit sep t = [t] := by
  rw [pySplit]
  simp only [List.isEmpty_eq_true, hsep, if_false]
  rw [show t.length + 1 = t.length + 1 from rfl]
  simp [pySplitAux, h]

/-- Re-joining the character-fallback windows while dropping the `overlap`
prefix of each reconstructs the corresponding drop of the input. -/
theorem charWindows_drop_flatten {chunkSize step overlap : Nat}
    (hstep : 0 < step) (hsum : step + overlap = chunkSize) :
    ∀ fuel (t : Str), t.length ≤ fuel → (∀ c ∈ t, pyWS c = false) →
      ((charWindowsAux chunkSize step fuel t).map (List.drop overlap)).flatten
        = t.drop overlap := by
  intro fuel
  induction fuel with
  | zero =>
    intro t hlen _
    have : t = [] := List.eq_nil_of_length_eq_zero (Nat.le_zero.mp hlen)
    subst this
    simp [charWindowsAux]
  | succ fuel ih =>
    intro t hlen hws
    cases t with
    | nil => simp [charWindowsAux]
    | cons c rest =>
      have hstrip : stripL ((c :: rest).take chunkSize) = (c :: rest).take chunkSize := by
        apply stripL_eq_self_of_no_ws
        intro d hd
        exact hws d (List.take_subset _ _ hd)
      have hcs : 1 ≤ chunkSize := by omega
      have hne : ((c :: rest).take chunkSize).isEmpty = false := by
        cases chunkSize with
        | zero => omega
        | succ n => simp [List.take]
      rw [charWindowsAux]
      simp only [hstrip, hne, Bool.false_eq_true, if_false, List.map_cons,
        List.flatten_cons]
      have hlen' : ((c :: rest).drop step).length ≤ fuel := by
        simp only [List.length_drop]
        have : (c :: rest).length ≤ fuel + 1 := hlen
        omega
      have hws'' : ∀ d ∈ (c :: rest).drop step, pyWS d = false := by
        intro d hd
        exact hws d (List.drop_subset _ _ hd)
      rw [ih _ hlen' hws'']
      rw [List.drop_take]
      have h1 : chunkSize - overlap = step := by omega
      rw [h1]
      rw [List.drop_drop]
      have h3 : List.drop (step + overlap) (c :: rest)
          = List.drop step (List.drop overlap (c :: rest)) := by
        rw [List.drop_drop]
        congr 1
        omega
      rw [h3]
      exact List.take_append_drop _ _
      simp

/-- C2: the claim says `chunk_text` tries the separator preference list in
order ("\n\n", "\n", ". ", " ", character fallback).  Evaluating the code at
`"ab\ncd\nef"` with `size = 4`, `overlap = 1` shows otherwise: `"\n"` occurs
twice (splitting on it yields three parts, and the greedy accumulation would
give `["abcd", "def"]`), yet because `"\n\n"` does not occur the code jumps
straight to fixed-stride character windows, producing
`["ab\nc", "cd\ne", "ef"]`. -/
theorem chunk_text_first_separator_only :
    (pySplit ['\n'] "ab\ncd\nef".data).length = 3 ∧
    (pySplit ['\n', '\n'] "ab\ncd\nef".data).length = 1 ∧
    chunk_text "ab\ncd\nef".data 4 1 = ["ab\nc".data, "cd\ne".data, "ef".data] ∧
    chunk_text "ab\ncd\nef".data 4 1
      = charFallbackSplit "ab\ncd\nef".data 4 1 ∧
    accumParts ['\n'] 4 1 (pySplit ['\n'] "ab\ncd\nef".data) [] []
      = ["abcd".data, "def".data] := by
  decide

/-- C3, counterexample: for `text = "aaa\n\nbbb"`, `size = 5`, `overlap = 2`
(valid: `0 ≤ 2 < 5`), re-joining the chunks while ignoring the 2-character
overlap prefix of each chunk after the first yields `"aaab"`, which differs
from the original text even though the original needs no surrounding trim. -/
theorem chunk_rejoin_cex :
    (2 : Nat) < 5 ∧
    stripL "aaa\n\nbbb".data = "aaa\n\nbbb".data ∧
    rejoinOverlap 2 (chunk_text "aaa\n\nbbb".data 5 2) = "aaab".data ∧
    "aaab".data ≠ "aaa\n\nbbb".data := by
  decide

/-- C3, amended: the coverage round-trip does hold on the character-fallback
path, i.e. for every whitespace-free text longer than `size` (such texts
contain no separator, so `chunk_text` uses fixed-stride windows):
re-joining the chunks of `chunk_text text size overlap`, ignoring the
`overlap`-character prefix of each chunk after the first, reconstructs the
text exactly, for any `0 ≤ overlap < size`. -/
theorem chunk_rejoin_char_fallback (text : Str) (chunkSize overlap : Nat)
    (hov : overlap < chunkSize) (hlen : chunkSize < text.length)
    (hws : ∀ c ∈ text, pyWS c = false) :
    rejoinOverlap overlap (chunk_text text chunkSize overlap) = text := by
  have hne : text ≠ [] := by
    intro h
    rw [h] at hlen
    simp at hlen
  have hstrip : stripL text = text := stripL_eq_self_of_no_ws hws
  have hsne : (stripL text).isEmpty = false := by
    rw [hstrip]
    cases text with
    | nil => exact absurd rfl hne
    | cons a b => rfl
  have hnl : ∀ c ∈ text, c ≠ '\n' := by
    intro c hc h
    have := hws c hc
    rw [h] at this
    simp [pyWS] at this
  have hsplit : pySplit ['\n', '\n'] text = [text] :=
    pySplit_eq_single (by simp) (findOcc_eq_none_of_not_mem hnl)
  rw [chunk_text, _recursive_split]
  simp only [hsne, Bool.false_eq_true, if_false]
  rw [if_neg (by omega)]
  simp only [List.headD_cons, hsplit]
  have hstep : chunkSize - overlap ≠ 0 := by omega
  simp only [List.length_cons, List.length_nil, charFallbackSplit, hstep,
    if_false, List.isEmpty_cons, gt_iff_lt, Nat.lt_irrefl, if_true]
  -- now the goal is about the character windows
  cases text with
  | nil => exact absurd rfl hne
  | cons c rest =>
    have hcs : 1 ≤ chunkSize := by omega
    have hstrip1 : stripL ((c :: rest).take chunkSize)
        = (c :: rest).take chunkSize := by
      apply stripL_eq_self_of_no_ws
      intro d hd
      exact hws d (List.take_subset _ _ hd)
    have hne1 : ((c :: rest).take chunkSize).isEmpty = false := by
      cases chunkSize with
      | zero => omega
      | succ n => simp [List.take]
    rw [show (c :: rest).length = rest.length + 1 from rfl, charWindowsAux]
    simp only [hstrip1, hne1, Bool.false_eq_true, if_false]
    simp only [Bool.not_false, if_true, ite_self, rejoinOverlap]
    have hlen2 : ((c :: rest).drop (chunkSize - overlap)).length ≤ rest.length := by
      simp only [List.length_drop, List.length_cons]
      omega
    have hws2 : ∀ d ∈ (c :: rest).drop (chunkSize - overlap), pyWS d = false := by
      intro d hd
      exact hws d (List.drop_subset _ _ hd)
    have hflat := @charWindows_drop_flatten chunkSize (chunkSize - overlap)
      overlap (by omega) (by omega) rest.length
      ((c :: rest).drop (chunkSize - overlap)) hlen2 hws2
    rw [hflat]
    rw [List.drop_drop]
    rw [show chunkSize - overlap + overlap = chunkSize by omega]
    exact List.take_append_drop _ _
    simp

/-- Witness for `chunk_rejoin_char_fallback` at `text = "abcde"`, `size = 3`,
`overlap = 1`. -/
theorem chunk_rejoin_char_fallback_witness :
    ((1 : Nat) < 3 ∧ (3 : Nat) < "abcde".data.length ∧
      ∀ c ∈ "abcde".data, pyWS c = false) ∧
    rejoinOverlap 1 (chunk_text "abcde".data 3 1) = "abcde".data :=
  ⟨⟨by decide, by decide, by decide⟩,
    chunk_rejoin_char_fallback "abcde".data 3 1 (by decide) (by decide)
      (by decide)⟩

/-! ## Vector store (`app/ingestion/vector_store.py`)

The FAISS `IndexFlatIP` index, the Ollama embedding client and the numpy
float arrays are external collaborators.  They are modeled as follows:
vectors are `List ℚ` (exact arithmetic in place of float32); the embedding
service is a parameter `embed : List String → List (List ℚ)`; numpy's
`np.linalg.norm(..., axis=1)` is a parameter `nrm : List ℚ → ℚ` (the claims
that depend on it characterize it by `0 ≤ nrm v` and
`nrm v * nrm v = sumSq v`, i.e. the L2 norm, since square roots are not
rational-valued in general).  File persistence (`_save`, the `unlink`s in
`clear`) is external I/O and is not part of the in-memory state machine;
`_load` is modeled separately as a pure function of the two files'
contents. -/

/-- A Python metadata value as it can occur in this pipeline. -/
inductive PyVal where
  | pstr (s : String)
  | pint (n : Int)
  | pfloat (q : ℚ)
  | pbool (b : Bool)
  | pnone
  | plist (repr : String)
  | pdict (repr : String)
deriving DecidableEq

/-- A Python dict used as chunk metadata: association list, unique keys,
insertion order. -/
abbrev Meta := List (String × PyVal)

/-- The metadata cleaning of `add_chunks` (vector_store.py lines 69-80):
scalars kept, `list`/`dict` stringified, `None` (falsy) becomes `""`.
The stringified form of a `plist`/`pdict` is carried in the constructor. -/
def cleanVal : PyVal → PyVal
  | .pstr s => .pstr s
  | .pint n => .pint n
  | .pfloat q => .pfloat q
  | .pbool b => .pbool b
  | .plist r => .pstr r
  | .pdict r => .pstr r
  | .pnone => .pstr ""

/-- One cleaned metadata dict (the inner loop of lines 71-80). -/
def cleanMeta (m : Meta) : Meta := m.map (fun kv => (kv.1, cleanVal kv.2))

/-- `faiss.IndexFlatIP`: a fixed dimensionality plus the stored vectors. -/
structure FaissIndexIP where
  dim : Nat
  vectors : List (List ℚ)
deriving DecidableEq

/-- `index.ntotal`. -/
def FaissIndexIP.ntotal (ix : FaissIndexIP) : Nat := ix.vectors.length

/-- `index.add(vectors)`: appends; FAISS asserts that every row has the
index's dimensionality (a dimension mismatch raises). -/
def FaissIndexIP.add (ix : FaissIndexIP) (rows : List (List ℚ)) :
    Except String FaissIndexIP :=
  if rows.all (fun v => v.length = ix.dim) then
    .ok ⟨ix.dim, ix.vectors ++ rows⟩
  else .error "faiss add: dimension mismatch"

/-- Exact inner product of two vectors. -/
def dotQ (a b : List ℚ) : ℚ := (List.zipWith (· * ·) a b).sum

/-- Stable insertion into a score-descending list. -/
def insertByScore (x : Nat × ℚ) : List (Nat × ℚ) → List (Nat × ℚ)
  | [] => [x]
  | y :: ys => if x.2 > y.2 then x :: y :: ys else y :: insertByScore x ys

/-- Stable sort, descending by score. -/
def sortByScoreDesc (l : List (Nat × ℚ)) : List (Nat × ℚ) :=
  l.foldr insertByScore []

/-- Inner products of `q` against each stored vector, with positions. -/
def scoreAll (q : List ℚ) : Nat → List (List ℚ) → List (Nat × ℚ)
  | _, [] => []
  | i, v :: vs => (i, dotQ q v) :: scoreAll q (i + 1) vs

/-- `index.search(q, k)` for `IndexFlatIP`: the `k` stored vectors with the
largest inner products against `q`, as (position, score) pairs, best first.
(The code always calls it with `k ≤ ntotal`, so no `-1` padding arises.) -/
def FaissIndexIP.search (ix : FaissIndexIP) (q : List ℚ) (k : Nat) :
    List (Nat × ℚ) :=
  (sortByScoreDesc (scoreAll q 0 ix.vectors)).take k

/-- `sum of squares` of a vector (`‖v‖²`). -/
def sumSq (v : List ℚ) : ℚ := (v.map (fun x => x * x)).sum

/-- `VectorStore._normalize` (vector_store.py lines 52-56):
`norms = np.linalg.norm(vectors, axis=1); norms = np.where(norms == 0, 1,
norms); return vectors / norms`, with `nrm` standing for the per-row
`np.linalg.norm`. -/
def normalizeRows (nrm : List ℚ → ℚ) (rows : List (List ℚ)) :
    List (List ℚ) :=
  rows.map (fun v =>
    let n := nrm v
    let n := if n = 0 then 1 else n
    v.map (fun x => x / n))

/-- The in-memory state of `VectorStore`: the three parallel collections. -/
structure VectorStore where
  index : Option FaissIndexIP
  chunks : List String
  metadatas : List Meta
deriving DecidableEq

/-- Fueled worker for `batchedEmbed`; each step consumes `bs ≥ 1` chunks. -/
def batchedEmbedAux (embed : List String → List (List ℚ)) (bs : Nat) :
    Nat → List String → List (List ℚ)
  | 0, _ => []
  | _, [] => []
  | fuel + 1, cs => embed (cs.take bs) ++ batchedEmbedAux embed bs fuel (cs.drop bs)

/-- The batching loop of `add_chunks` (vector_store.py lines 82-86):
`for i in range(0, len(chunks), batch_size): all_embeddings.extend(...)`.
`batch_size = 0` makes Python's `range` raise; modeled as `[]` (that case
then surfaces as the empty-matrix error below, so it never yields `.ok`). -/
def batchedEmbed (embed : List String → List (List ℚ)) (bs : Nat)
    (cs : List String) : List (List ℚ) :=
  if bs = 0 then [] else batchedEmbedAux embed bs cs.length cs

/-- `VectorStore.add_chunks` (vector_store.py lines 58-99).  Errors model
the exceptions numpy/faiss would raise (`np.array` of an empty or ragged
embedding list, faiss dimension assertion); on error the caller's state is
unchanged, exactly as in the source where `self._chunks`/`self._metadatas`
are extended only after `self._index.add` succeeds.  Note the source never
validates `len(chunks) == len(metadatas)`. -/
def VectorStore.add_chunks (embed : List String → List (List ℚ))
    (nrm : List ℚ → ℚ) (st : VectorStore) (chunks : List String)
    (metadatas : List Meta) (batchSize : Nat := 32) :
    Except String (VectorStore × Nat) :=
  if chunks.isEmpty then .ok (st, 0)
  else
    let cleanMetadatas := metadatas.map cleanMeta
    let allEmbeddings := batchedEmbed embed batchSize chunks
    match allEmbeddings with
    | [] => .error "np.array: empty embedding matrix has no axis 1"
    | v0 :: vrest =>
      if vrest.all (fun v => v.length = v0.length) then
        let vectors := normalizeRows nrm (v0 :: vrest)
        let dim := v0.length
        let ix := st.index.getD ⟨dim, []⟩
        match ix.add vectors with
        | .error e => .error e
        | .ok ix' =>
          .ok ({ index := some ix',
                 chunks := st.chunks ++ chunks,
                 metadatas := st.metadatas ++ cleanMetadatas },
               chunks.length)
      else .error "np.array: ragged embedding matrix"

/-- `VectorStore.clear` (vector_store.py lines 108-116), in-memory part
(the two `unlink` calls are file-system effects outside the state). -/
def VectorStore.clear (_st : VectorStore) : VectorStore :=
  { index := none, chunks := [], metadatas := [] }

/-- `VectorStore.count` (vector_store.py lines 157-161). -/
def VectorStore.count (st : VectorStore) : Nat :=
  match st.index with
  | none => 0
  | some ix => ix.ntotal

/-- Python truthiness of the `include_doc_types` argument
(`None` and `[]` are falsy). -/
def truthyFilter : Option (List String) → Bool
  | some (_ :: _) => true
  | _ => false

/-- `fetch_k` computation of `search` (vector_store.py lines 133-134). -/
def fetchK (idt : Option (List String)) (topK ntotal : Nat) : Nat :=
  min (if truthyFilter idt then topK * 4 else topK) ntotal

/-- Python `meta.get("doc_type") in include_doc_types` for a string list:
only a string value can compare equal to a string. -/
def pyStrIn (v : Option PyVal) (l : List String) : Bool :=
  match v with
  | some (.pstr s) => decide (s ∈ l)
  | _ => false

/-- One search result (`{content, metadata, distance}`). -/
structure SearchHit where
  content : String
  metadata : Meta
  distance : ℚ
deriving DecidableEq

/-- The result loop of `search` (vector_store.py lines 138-153): skip
out-of-range positions, apply the doc-type filter when truthy, convert the
inner-product score to `1 - score`, and break once `top_k` results are
collected.  `metas.getD idx []` models `self._metadatas[idx]`, which in the
source is only evaluated for `idx < len(self._chunks)` and cannot be
out of range when the store's parallel collections have equal length. -/
def searchLoop (chunks : List String) (metas : List Meta)
    (idt : Option (List String)) (topK : Nat) :
    List (Nat × ℚ) → List SearchHit → List SearchHit
  | [], out => out
  | (idx, score) :: rest, out =>
    if chunks.length ≤ idx then searchLoop chunks metas idt topK rest out
    else
      let meta := metas.getD idx []
      if truthyFilter idt && !pyStrIn (meta.lookup "doc_type") (idt.getD []) then
        searchLoop chunks metas idt topK rest out
      else
        let out' := out ++ [⟨chunks.getD idx "", meta, 1 - score⟩]
        if topK ≤ out'.length then out'
        else searchLoop chunks metas idt topK rest out'

/-- `VectorStore.search` (vector_store.py lines 118-155). -/
def VectorStore.search (embed : List String → List (List ℚ))
    (nrm : List ℚ → ℚ) (st : VectorStore) (query : String)
    (topK : Nat := 12) (idt : Option (List String) := none) :
    List SearchHit :=
  match st.index with
  | none => []
  | some ix =>
    if st.chunks.length = 0 then []
    else
      let qrows := normalizeRows nrm (embed [query])
      let q := qrows.headD []
      let fk := fetchK idt topK ix.ntotal
      searchLoop st.chunks st.metadatas idt topK (ix.search q fk) []

/-- The parsed content of the `{chunks: ..., metadatas: ...}` JSON record
(`data.get(key, [])` supplies `[]` when a key is absent). -/
structure MetaRecord where
  chunksField : Option (List String)
  metadatasField : Option (List Meta)

/-- `VectorStore._load` (vector_store.py lines 33-44) as a pure function of
the two persisted files: `none` = file missing, `some (.error e)` = file
present but `faiss.read_index` / `json.load` raises on its content,
`some (.ok v)` = file present and parses.  When both files exist the source
reads them with no exception handling, so a parse error propagates. -/
def VectorStore._load :
    Option (Except String FaissIndexIP) → Option (Except String MetaRecord) →
    Except String VectorStore
  | some ir, some mr => do
    let ix ← ir
    let m ← mr
    .ok ⟨some ix, m.chunksField.getD [], m.metadatasField.getD []⟩
  | _, _ => .ok ⟨none, [], []⟩

/-! ### Vector store lemmas -/

theorem batchedEmbedAux_length (embed : List String → List (List ℚ))
    (bs : Nat) (hbs : 0 < bs)
    (hE : ∀ ts, (embed ts).length = ts.length) :
    ∀ fuel (cs : List String), cs.length ≤ fuel →
      (batchedEmbedAux embed bs fuel cs).length = cs.length := by
  intro fuel
  induction fuel with
  | zero =>
    intro cs hlen
    have : cs = [] := List.eq_nil_of_length_eq_zero (Nat.le_zero.mp hlen)
    subst this
    rfl
  | succ fuel ih =>
    intro cs hlen
    cases cs with
    | nil => rfl
    | cons c rest =>
      rw [batchedEmbedAux]
      rw [List.length_append, hE]
      rw [ih ((c :: rest).drop bs) (by simp [List.length_drop] at *; omega)]
      simp [List.length_take, List.length_drop]
      omega
      simp

theorem batchedEmbed_length (embed : List String → List (List ℚ))
    {bs : Nat} (hbs : bs ≠ 0)
    (hE : ∀ ts, (embed ts).length = ts.length) (cs : List String) :
    (batchedEmbed embed bs cs).length = cs.length := by
  rw [batchedEmbed, if_neg hbs]
  exact batchedEmbedAux_length embed bs (Nat.pos_of_ne_zero hbs) hE _ cs
    (Nat.le_refl _)

theorem normalizeRows_length (nrm : List ℚ → ℚ) (rows : List (List ℚ)) :
    (normalizeRows nrm rows).length = rows.length := by
  simp [normalizeRows]

/-- Everything `add_chunks` guarantees when it returns `.ok`: the returned
count is `len(chunks)`, the text/metadata lists are extended by exactly the
inputs, and the index gained one vector per chunk (given an embedding
service that returns one vector per input). -/
theorem add_chunks_ok_spec (embed : List String → List (List ℚ))
    (nrm : List ℚ → ℚ) (st : VectorStore) (chunks : List String)
    (metas : List Meta) (bs : Nat)
    (hE : ∀ ts, (embed ts).length = ts.length)
    (st' : VectorStore) (n : Nat)
    (h : VectorStore.add_chunks embed nrm st chunks metas bs = .ok (st', n)) :
    n = chunks.length ∧
    st'.count = st.count + chunks.length ∧
    st'.chunks.length = st.chunks.length + chunks.length ∧
    (chunks = [] → st' = st) ∧
    (chunks ≠ [] → st'.metadatas = st.metadatas ++ metas.map cleanMeta) := by
  simp only [VectorStore.add_chunks] at h
  cases chunks with
  | nil =>
    simp only [List.isEmpty_nil, if_true] at h
    have h' := Except.ok.inj h
    have hst : st = st' := congrArg Prod.fst h'
    have hn : 0 = n := congrArg Prod.snd h'
    subst hst
    subst hn
    simp
  | cons c0 crest =>
    simp only [List.isEmpty_cons, Bool.false_eq_true, if_false] at h
    cases hm : batchedEmbed embed bs (c0 :: crest) with
    | nil => rw [hm] at h; exact absurd h (by simp)
    | cons v0 vrest =>
      rw [hm] at h
      dsimp only at h
      split at h
      · split at h
        · exact absurd h (by simp)
        · rename_i ix' hadd
          simp only [Except.ok.injEq, Prod.mk.injEq] at h
          obtain ⟨hst, hn⟩ := h
          subst hst
          subst hn
          have hbs : bs ≠ 0 := by
            intro h0
            rw [h0] at hm
            simp [batchedEmbed] at hm
          have hlenE : (batchedEmbed embed bs (c0 :: crest)).length
              = (c0 :: crest).length := batchedEmbed_length embed hbs hE _
          rw [hm] at hlenE
          rw [FaissIndexIP.add] at hadd
          split at hadd
          · simp only [Except.ok.injEq] at hadd
            subst hadd
            refine ⟨rfl, ?_, by simp, by simp, fun _ => rfl⟩
            simp only [VectorStore.count, FaissIndexIP.ntotal,
              List.length_append]
            rw [normalizeRows_length, hlenE]
            cases hix : st.index with
            | none => simp [hix]
            | some ixo => simp [hix]
          · exact absurd hadd (by simp)
      · exact absurd h (by simp)

/-- C5, counterexample: when both persisted files are present but the
metadata file's content is corrupt, `_load` propagates the parse error
instead of initializing an empty store, refuting the "corrupt content
degrades to empty" half of the claim. -/
theorem load_corrupt_raises_cex :
    VectorStore._load (some (.ok ⟨1, []⟩)) (some (.error "corrupt json"))
      = .error "corrupt json" ∧
    VectorStore._load (some (.ok ⟨1, []⟩)) (some (.error "corrupt json"))
      ≠ .ok ⟨none, [], []⟩ := by
  constructor
  · rfl
  · intro h
    rw [show VectorStore._load (some (.ok ⟨1, []⟩))
          (some (.error "corrupt json")) = .error "corrupt json" from rfl] at h
    exact absurd h (by simp)

/-- C5, amended: loading requires both persisted files; if either file is
*missing* the store initializes empty (no partial load).  (If both are
present but one is corrupt, the parse error propagates — see the
counterexample.) -/
theorem load_missing_initializes_empty
    (i : Option (Except String FaissIndexIP))
    (m : Option (Except String MetaRecord)) (h : i = none ∨ m = none) :
    VectorStore._load i m = .ok ⟨none, [], []⟩ := by
  rcases h with h | h
  · subst h
    cases m <;> rfl
  · subst h
    cases i <;> rfl

/-- Witness for `load_missing_initializes_empty`: metadata file present and
well-formed, index file missing. -/
theorem load_missing_initializes_empty_witness :
    VectorStore._load none (some (.ok ⟨some ["x"], some [[]]⟩))
      = .ok ⟨none, [], []⟩ :=
  load_missing_initializes_empty none (some (.ok ⟨some ["x"], some [[]]⟩))
    (Or.inl rfl)

/-- C8: with `nrm` characterized as the exact L2 norm (`0 ≤ nrm v` and
`nrm v * nrm v = sumSq v`, the rational stand-in for
`np.linalg.norm`), the store's normalization leaves an already unit-length
vector unchanged (exactly, the idealization of "within floating-point
tolerance"), and maps a zero vector to itself instead of dividing by zero:
the `np.where(norms == 0, 1, norms)` guard substitutes divisor 1. -/
theorem normalize_unit_and_zero (v : List ℚ) (nrm : List ℚ → ℚ)
    (hpos : 0 ≤ nrm v) (hchar : nrm v * nrm v = sumSq v) :
    (sumSq v = 1 → normalizeRows nrm [v] = [v]) ∧
    ((∀ x ∈ v, x = 0) → normalizeRows nrm [v] = [v]) := by
  constructor
  · intro hunit
    have hsq : nrm v * nrm v = 1 := by rw [hchar, hunit]
    have h1 : nrm v = 1 ∨ nrm v = -1 := mul_self_eq_one_iff.mp hsq
    have hone : nrm v = 1 := by
      rcases h1 with h | h
      · exact h
      · rw [h] at hpos; norm_num at hpos
    simp [normalizeRows, hone, List.map_id]
  · intro hzero
    have hz : sumSq v = 0 := by
      simp only [sumSq]
      rw [List.sum_eq_zero]
      intro x hx
      simp only [List.mem_map] at hx
      obtain ⟨y, hy, rfl⟩ := hx
      rw [hzero y hy]
      ring
    have hn0 : nrm v = 0 := by
      have := hchar.trans hz
      exact mul_self_eq_zero.mp this
    simp [normalizeRows, hn0, List.map_id]

/-- Witness for `normalize_unit_and_zero` at `v = [1, 0]`, `nrm = const 1`
(the L2 norm of `[1,0]`). -/
theorem normalize_unit_and_zero_witness :
    ((0 : ℚ) ≤ 1 ∧ (1 : ℚ) * 1 = sumSq [1, 0] ∧ sumSq [1, 0] = 1) ∧
    normalizeRows (fun _ => 1) [[1, 0]] = [[1, 0]] := by
  have hchar : (fun (_ : List ℚ) => (1 : ℚ)) [1, 0]
      * (fun (_ : List ℚ) => (1 : ℚ)) [1, 0] = sumSq [1, 0] := by
    simp [sumSq]
  have hsum : sumSq [(1 : ℚ), 0] = 1 := by simp [sumSq]
  exact ⟨⟨by norm_num, by simpa using hchar, hsum⟩,
    (normalize_unit_and_zero [1, 0] (fun _ => 1) (by norm_num) hchar).1 hsum⟩

/-- The spec's IndexEntry invariant: the three parallel collections have
equal entry counts. -/
def wellFormed (st : VectorStore) : Prop :=
  st.chunks.length = st.metadatas.length ∧ st.count = st.chunks.length

/-- A concrete embedding service for witnesses: one 1-dimensional unit
vector per input. -/
def embOne : List String → List (List ℚ) := fun ts => ts.map (fun _ => [1])

/-- The L2 norm restricted to the vectors `embOne` produces. -/
def nrmOne : List ℚ → ℚ := fun _ => 1

/-- C1, counterexample: `add_chunks` performs no `len(chunks) ==
len(metadatas)` validation.  Called on an empty store with 2 chunks and 1
metadata dict it succeeds (returns 2) and leaves the store with 2 chunk
texts / 2 index vectors but only 1 metadata entry — the parallel-collection
invariant is broken, refuting both halves of the claim. -/
theorem add_chunks_no_length_validation_cex :
    VectorStore.add_chunks embOne nrmOne ⟨none, [], []⟩ ["a", "b"] [[]] 32
      = .ok (⟨some ⟨1, [[1], [1]]⟩, ["a", "b"], [[]]⟩, 2) ∧
    (["a", "b"] : List String).length ≠ ([[]] : List Meta).length ∧
    ¬ wellFormed ⟨some ⟨1, [[1], [1]]⟩, ["a", "b"], [[]]⟩ := by
  refine ⟨?_, by decide, ?_⟩
  · simp [VectorStore.add_chunks, batchedEmbed, batchedEmbedAux,
      normalizeRows, cleanMeta, FaissIndexIP.add, embOne, nrmOne]
  · intro hwf
    have := hwf.1
    simp at this

/-- C1, amended: `add_chunks` does not validate the lengths; however, on
well-formed stores and for calls that do pass `len(chunks) ==
len(metadatas)`, every mutating operation preserves equality of the three
parallel collection sizes (`search` and `count` do not mutate state at
all in the model, as in the source). -/
theorem add_chunks_preserves_parallel_lengths
    (embed : List String → List (List ℚ)) (nrm : List ℚ → ℚ)
    (st : VectorStore) (chunks : List String) (metas : List Meta) (bs : Nat)
    (hE : ∀ ts, (embed ts).length = ts.length)
    (hwf : wellFormed st) (hlen : chunks.length = metas.length) :
    (∀ st' n, VectorStore.add_chunks embed nrm st chunks metas bs
        = .ok (st', n) → wellFormed st') ∧
    wellFormed (VectorStore.clear st) := by
  constructor
  · intro st' n h
    obtain ⟨hn, hcount, hchlen, hnil, hext⟩ :=
      add_chunks_ok_spec embed nrm st chunks metas bs hE st' n h
    by_cases hc : chunks = []
    · rw [hnil hc]
      exact hwf
    · constructor
      · rw [hchlen, hext hc, List.length_append, List.length_map]
        rw [hwf.1, hlen]
      · rw [hcount, hchlen, hwf.2]
  · exact ⟨rfl, rfl⟩

/-- Witness for `add_chunks_preserves_parallel_lengths`: a matched-length
add on the empty store, plus `clear`. -/
theorem add_chunks_preserves_parallel_lengths_witness :
    wellFormed ⟨some ⟨1, [[1]]⟩, ["a"], [[]]⟩ ∧
    wellFormed (VectorStore.clear ⟨none, [], []⟩) := by
  have hE : ∀ ts, (embOne ts).length = ts.length := by
    intro ts
    simp [embOne]
  have hth := add_chunks_preserves_parallel_lengths embOne nrmOne
    ⟨none, [], []⟩ ["a"] [[]] 32 hE ⟨rfl, rfl⟩ rfl
  refine ⟨?_, hth.2⟩
  apply hth.1 _ 1
  simp [VectorStore.add_chunks, batchedEmbed, batchedEmbedAux,
    normalizeRows, cleanMeta, FaissIndexIP.add, embOne, nrmOne]

/-- C6: from any store state, a successful `add_chunks` of `n` chunks
returns `n` and increases `count()` by exactly `n`; `clear()` followed by
`count()` gives 0; and `search` on the cleared store returns `[]` for every
query, `top_k` and filter.  The hypothesis characterizes the external
embedding service as returning one vector per input. -/
theorem add_count_clear_search_roundtrip
    (embed : List String → List (List ℚ)) (nrm : List ℚ → ℚ)
    (st : VectorStore) (chunks : List String) (metas : List Meta) (bs : Nat)
    (q : String) (topK : Nat) (idt : Option (List String))
    (hE : ∀ ts, (embed ts).length = ts.length) :
    (∀ st' n, VectorStore.add_chunks embed nrm st chunks metas bs
        = .ok (st', n) →
      n = chunks.length ∧
      (VectorStore.count st') = VectorStore.count st + chunks.length) ∧
    VectorStore.count (VectorStore.clear st) = 0 ∧
    VectorStore.search embed nrm (VectorStore.clear st) q topK idt = [] := by
  refine ⟨?_, rfl, rfl⟩
  intro st' n h
  obtain ⟨hn, hcount, _⟩ :=
    add_chunks_ok_spec embed nrm st chunks metas bs hE st' n h
  exact ⟨hn, hcount⟩

/-- Witness for `add_count_clear_search_roundtrip`: one chunk added to the
empty store. -/
theorem add_count_clear_search_roundtrip_witness :
    ((1 : Nat) = (["a"] : List String).length ∧
      VectorStore.count ⟨some ⟨1, [[1]]⟩, ["a"], [[]]⟩
        = VectorStore.count ⟨none, [], []⟩ + (["a"] : List String).length) ∧
    VectorStore.count (VectorStore.clear ⟨none, [], []⟩) = 0 ∧
    VectorStore.search embOne nrmOne (VectorStore.clear ⟨none, [], []⟩)
      "query" 12 none = [] := by
  have hE : ∀ ts, (embOne ts).length = ts.length := by
    intro ts
    simp [embOne]
  have hth := add_count_clear_search_roundtrip embOne nrmOne ⟨none, [], []⟩
    ["a"] [[]] 32 "query" 12 none hE
  refine ⟨hth.1 ⟨some ⟨1, [[1]]⟩, ["a"], [[]]⟩ 1 ?_, hth.2.1, hth.2.2⟩
  simp [VectorStore.add_chunks, batchedEmbed, batchedEmbedAux,
    normalizeRows, cleanMeta, FaissIndexIP.add, embOne, nrmOne]

theorem truthyFilter_of_ne_nil {l : List String} (hl : l ≠ []) :
    truthyFilter (some l) = true := by
  cases l with
  | nil => exact absurd rfl hl
  | cons x xs => rfl

/-- Every hit the search loop emits under a nonempty doc-type filter has a
`doc_type` metadata value inside the filter list. -/
theorem searchLoop_filter_mem (chunks : List String) (metas : List Meta)
    {l : List String} (hl : l ≠ []) (topK : Nat) :
    ∀ (hits : List (Nat × ℚ)) (out : List SearchHit),
      (∀ h ∈ out, pyStrIn (h.metadata.lookup "doc_type") l = true) →
      ∀ h ∈ searchLoop chunks metas (some l) topK hits out,
        pyStrIn (h.metadata.lookup "doc_type") l = true := by
  intro hits
  induction hits with
  | nil =>
    intro out hout h hmem
    rw [searchLoop] at hmem
    exact hout h hmem
  | cons p rest ih =>
    obtain ⟨idx, score⟩ := p
    intro out hout h hmem
    rw [searchLoop] at hmem
    by_cases h1 : chunks.length ≤ idx
    · rw [if_pos h1] at hmem
      exact ih out hout h hmem
    · rw [if_neg h1] at hmem
      by_cases h2 : (truthyFilter (some l)
          && !pyStrIn ((metas.getD idx []).lookup "doc_type")
              ((some l).getD [])) = true
      · rw [if_pos h2] at hmem
        exact ih out hout h hmem
      · rw [if_neg h2] at hmem
        have hpy : pyStrIn ((metas.getD idx []).lookup "doc_type") l = true := by
          simp only [truthyFilter_of_ne_nil hl, Bool.true_and,
            Bool.not_eq_true', Option.getD_some] at h2
          cases hv : pyStrIn ((metas.getD idx []).lookup "doc_type") l with
          | false => exact absurd hv h2
          | true => rfl
        have hout' : ∀ g ∈ out ++ [SearchHit.mk (chunks.getD idx "")
            (metas.getD idx []) (1 - score)],
            pyStrIn (g.metadata.lookup "doc_type") l = true := by
          intro g hg
          rcases List.mem_append.mp hg with hg | hg
          · exact hout g hg
          · rw [List.mem_singleton.mp hg]
            exact hpy
        by_cases h3 : topK ≤ (out ++ [SearchHit.mk (chunks.getD idx "")
            (metas.getD idx []) (1 - score)]).length
        · rw [if_pos h3] at hmem
          exact hout' h hmem
        · rw [if_neg h3] at hmem
          exact ih _ hout' h hmem

/-- The search loop never grows its output beyond `top_k`, starting from an
accumulator shorter than `top_k`. -/
theorem searchLoop_length_le (chunks : List String) (metas : List Meta)
    (idt : Option (List String)) (topK : Nat) :
    ∀ (hits : List (Nat × ℚ)) (out : List SearchHit), out.length < topK →
      (searchLoop chunks metas idt topK hits out).length ≤ topK := by
  intro hits
  induction hits with
  | nil =>
    intro out hout
    rw [searchLoop]
    omega
  | cons p rest ih =>
    obtain ⟨idx, score⟩ := p
    intro out hout
    rw [searchLoop]
    by_cases h1 : chunks.length ≤ idx
    · rw [if_pos h1]
      exact ih out hout
    · rw [if_neg h1]
      by_cases h2 : (truthyFilter idt
          && !pyStrIn ((metas.getD idx []).lookup "doc_type")
              (idt.getD [])) = true
      · rw [if_pos h2]
        exact ih out hout
      · rw [if_neg h2]
        by_cases h3 : topK ≤ (out ++ [SearchHit.mk (chunks.getD idx "")
            (metas.getD idx []) (1 - score)]).length
        · rw [if_pos h3]
          have hl1 : (out ++ [SearchHit.mk (chunks.getD idx "")
              (metas.getD idx []) (1 - score)]).length = out.length + 1 := by
            simp
          omega
        · rw [if_neg h3]
          apply ih
          have hl1 : (out ++ [SearchHit.mk (chunks.getD idx "")
              (metas.getD idx []) (1 - score)]).length = out.length + 1 := by
            simp
          omega

/-- C4: with a nonempty doc-type filter, `search` only returns hits whose
metadata `doc_type` is a string in the filter list, returns at most `top_k`
hits, and computes its internal over-fetch size as `min(top_k * 4, ntotal)`
before filtering and trimming. -/
theorem search_filter_topk_fetch (embed : List String → List (List ℚ))
    (nrm : List ℚ → ℚ) (st : VectorStore) (q : String) (topK : Nat)
    (l : List String) (hl : l ≠ []) :
    (∀ h ∈ VectorStore.search embed nrm st q topK (some l),
        pyStrIn (h.metadata.lookup "doc_type") l = true) ∧
    (VectorStore.search embed nrm st q topK (some l)).length ≤ topK ∧
    (∀ n, fetchK (some l) topK n = min (topK * 4) n) := by
  refine ⟨?_, ?_, ?_⟩
  · intro h hmem
    rw [VectorStore.search] at hmem
    cases hix : st.index with
    | none => rw [hix] at hmem; simp at hmem
    | some ix =>
      rw [hix] at hmem
      dsimp only at hmem
      by_cases hz : st.chunks.length = 0
      · rw [if_pos hz] at hmem
        simp at hmem
      · rw [if_neg hz] at hmem
        exact searchLoop_filter_mem st.chunks st.metadatas hl topK _ []
          (by intro g hg; simp at hg) h hmem
  · rw [VectorStore.search]
    cases hix : st.index with
    | none => simp
    | some ix =>
      dsimp only
      by_cases hz : st.chunks.length = 0
      · rw [if_pos hz]
        simp
      · rw [if_neg hz]
        cases topK with
        | zero =>
          have hfk : fetchK (some l) 0 ix.ntotal = 0 := by
            simp [fetchK]
          rw [hfk]
          have hsearch : ix.search ((normalizeRows nrm (embed [q])).headD []) 0
              = [] := by
            simp [FaissIndexIP.search]
          rw [hsearch]
          rw [searchLoop]
          simp
        | succ k =>
          exact searchLoop_length_le st.chunks st.metadatas (some l) (k + 1)
            _ [] (by simp)
  · intro n
    simp [fetchK, truthyFilter_of_ne_nil hl]

/-- Witness for `search_filter_topk_fetch`: a two-entry store (one resume,
one book chunk) searched with filter `["resume"]` and `top_k = 1`;
the resume hit is returned, the filter and bound conclusions hold, and the
`fetch_k` formula is checked at `ntotal = 7`. -/
theorem search_filter_topk_fetch_witness :
    pyStrIn ((SearchHit.mk "r" [("doc_type", PyVal.pstr "resume")] 0
        |>.metadata).lookup "doc_type") ["resume"] = true ∧
    (VectorStore.search embOne nrmOne
      ⟨some ⟨1, [[1], [0]]⟩, ["r", "b"],
        [[("doc_type", PyVal.pstr "resume")], [("doc_type", PyVal.pstr "book")]]⟩
      "q" 1 (some ["resume"])).length ≤ 1 ∧
    fetchK (some ["resume"]) 1 7 = min (1 * 4) 7 := by
  have hth := search_filter_topk_fetch embOne nrmOne
    ⟨some ⟨1, [[1], [0]]⟩, ["r", "b"],
      [[("doc_type", PyVal.pstr "resume")], [("doc_type", PyVal.pstr "book")]]⟩
    "q" 1 ["resume"] (by simp)
  have hsearch : VectorStore.search embOne nrmOne
      ⟨some ⟨1, [[1], [0]]⟩, ["r", "b"],
        [[("doc_type", PyVal.pstr "resume")], [("doc_type", PyVal.pstr "book")]]⟩
      "q" 1 (some ["resume"])
      = [SearchHit.mk "r" [("doc_type", PyVal.pstr "resume")] 0] := by
    norm_num [VectorStore.search, embOne, nrmOne, normalizeRows, fetchK,
      truthyFilter, FaissIndexIP.search, FaissIndexIP.ntotal, sortByScoreDesc,
      insertByScore, dotQ, searchLoop, pyStrIn, List.lookup, scoreAll]
  exact ⟨hth.1 _ (by rw [hsearch]; exact List.mem_singleton.mpr rfl),
    hth.2.1, hth.2.2 7⟩

/-! ## Sanitizer (`app/ingestion/sanitizer.py`)

The module's regexes are all anchored (`re.match`, `^...$` shapes) over
single lines and are embedded as deterministic matchers: every pattern
alternates whitespace runs, literal words, and optional punctuation drawn
from disjoint character classes, so greedy matching agrees with Python's
backtracking; the two `.*`-search patterns become explicit occurrence
scans.  `re.IGNORECASE` is modeled by lowercasing the line (ASCII). -/

/-- ASCII lowercasing (`str.lower()` / `re.IGNORECASE` on ASCII text). -/
def toLowerStr (s : Str) : Str := s.map Char.toLower

/-- Regex `\s*`: skip a whitespace run. -/
def skipWs (s : Str) : Str := s.dropWhile pyWS

/-- Regex word character `\w` (ASCII). -/
def isWordChar (c : Char) : Bool := c.isAlphanum || c = '_'

/-- An apostrophe (written via its code point). -/
def apos : Char := Char.ofNat 39

/-- Match a literal prefix, returning the remainder. -/
def dropLit (lit : Str) (s : Str) : Option Str :=
  if lit.isPrefixOf s then some (s.drop lit.length) else none

/-- Regex `c?`: consume the character if present. -/
def dropOptChar (c : Char) : Str → Str
  | [] => []
  | x :: rest => if x = c then rest else x :: rest

/-- Regex `\b` after a word character: next char non-word or end. -/
def boundaryAfter (s : Str) : Bool :=
  match s with
  | [] => true
  | c :: _ => !isWordChar c

/-- Regex `.*LIT\b.*$` (searching inside `s`): some occurrence of `lit`
followed by a word boundary. -/
def containsBoundedAfter (lit : Str) (s : Str) : Bool :=
  (List.range (s.length + 1)).any fun i =>
    lit.isPrefixOf (s.drop i) && boundaryAfter (s.drop (i + lit.length))

/-- Regex `.*\bLIT\b.*$` inside `s`, where the character before position 0
of `s` is a word character (all uses follow a literal ending in a letter):
some occurrence of `lit` preceded by a non-word character and followed by a
word boundary. -/
def containsBoundedBoth (lit : Str) (s : Str) : Bool :=
  (List.range (s.length + 1)).any fun i =>
    lit.isPrefixOf (s.drop i) &&
    (match i, s[i-1]? with
     | 0, _ => false
     | _ + 1, some c => !isWordChar c
     | _ + 1, none => false) &&
    boundaryAfter (s.drop (i + lit.length))

/-- Tail `\s*:?\s*\*?\*?\s*$` of the starred cut patterns. -/
def cutTailStar (s : Str) : Bool :=
  (skipWs (dropOptChar '*' (dropOptChar '*' (skipWs (dropOptChar ':'
    (skipWs s)))))).isEmpty

/-- Tail `\s*:?\s*$` of the plain cut patterns. -/
def cutTailPlain (s : Str) : Bool :=
  (skipWs (dropOptChar ':' (skipWs s))).isEmpty

/-- Match `lit` then hand the remainder to `tail`. -/
def matchLitThen (lit : Str) (tail : Str → Bool) (s : Str) : Bool :=
  match dropLit lit s with
  | some r => tail r
  | none => false

/-- `_CUT_SECTION_HEADERS` (sanitizer.py lines 12-17): `^\s*\*\*?\s*(Changes
Made|Workspace Suggestions)\s*:?\s*\*?\*?\s*$` or the same without stars,
case-insensitive. -/
def cutMatch (l : Str) : Bool :=
  let s := toLowerStr (skipWs l)
  (matchLitThen "changes made".data cutTailPlain s
    || matchLitThen "workspace suggestions".data cutTailPlain s)
  || (match s with
      | '*' :: s1 =>
        let s3 := skipWs (dropOptChar '*' s1)
        matchLitThen "changes made".data cutTailStar s3
          || matchLitThen "workspace suggestions".data cutTailStar s3
      | _ => false)

/-- `(resume|cover letter)\b` search for the "Here is ..." pattern. -/
def resumeOrCoverLetter (rest : Str) : Bool :=
  containsBoundedAfter "resume".data rest
    || containsBoundedAfter "cover letter".data rest

/-- `(an?|the)\b.*(resume|cover letter)\b.*$` after `Here is `. -/
def hereIsRest (r : Str) : Bool :=
  match dropLit "an".data r with
  | some rest => if boundaryAfter rest then resumeOrCoverLetter rest else false
  | none =>
    match dropLit "a".data r with
    | some rest => if boundaryAfter rest then resumeOrCoverLetter rest else false
    | none =>
      match dropLit "the".data r with
      | some rest =>
        if boundaryAfter rest then resumeOrCoverLetter rest else false
      | none => false

/-- `\b(Office of|Assemblymember|Senator)\b` search (lowercased input). -/
def containsOffice (r : Str) : Bool :=
  containsBoundedBoth "office of".data r
    || containsBoundedBoth "assemblymember".data r
    || containsBoundedBoth "senator".data r

/-- Literal of `I've made the necessary changes` (lowercased). -/
def litIve : Str := ['i', apos, 'v', 'e'] ++ " made the necessary changes".data

/-- Literal of `Here's the optimized resume` (lowercased). -/
def litHeres : Str :=
  ['h', 'e', 'r', 'e', apos, 's'] ++ " the optimized resume".data

/-- `_DROP_LINE_PATTERNS` (sanitizer.py lines 19-31), case-insensitive. -/
def dropMatch (l : Str) : Bool :=
  let s := toLowerStr (skipWs l)
  matchLitThen "based on the provided resume".data boundaryAfter s
  || (match dropLit "here is ".data s with
      | some r => hereIsRest r
      | none => false)
  || matchLitThen litIve boundaryAfter s
  || matchLitThen litHeres boundaryAfter s
  || matchLitThen "this directory contains".data boundaryAfter s
  || matchLitThen "this file contains".data boundaryAfter s
  || matchLitThen "i am excited to apply for".data boundaryAfter s
  || matchLitThen "i am applying for".data boundaryAfter s
  || (match dropLit "optimized it for".data s with
      | some r => boundaryAfter r && containsOffice r
      | none => false)
  || (match dropLit "optimized resume".data s with
      | some r => boundaryAfter r && containsOffice r
      | none => false)

/-- Tail `\s*:\s*$` of the section start hints. -/
def secTail (s : Str) : Bool :=
  match skipWs s with
  | ':' :: r => (skipWs r).isEmpty
  | _ => false

/-- `_SECTION_START_HINTS` (sanitizer.py lines 33-42): `Summary`,
`Experience`, `Education` or `Skills`, optionally `**`-wrapped, followed by
a colon, case-insensitive. -/
def secMatch (l : Str) : Bool :=
  let s := toLowerStr (skipWs l)
  ["summary".data, "experience".data, "education".data, "skills".data].any
    (fun w =>
      matchLitThen (['*', '*'] ++ w ++ ['*', '*']) secTail s
        || matchLitThen w secTail s)

/-- `^\s*\*\*[^*]{3,}\*\*\s*$` (sanitizer.py line 76): a bold short line,
e.g. a candidate name. -/
def boldNameLine (l : Str) : Bool :=
  match skipWs l with
  | '*' :: '*' :: r =>
    (decide (3 ≤ (r.takeWhile (fun c => c ≠ '*')).length)) &&
    (match r.drop (r.takeWhile (fun c => c ≠ '*')).length with
     | '*' :: '*' :: r2 => (skipWs r2).isEmpty
     | _ => false)
  | _ => false

/-- Stage 1 (sanitizer.py lines 52-58): keep lines up to the first cut
header, exclusive. -/
def stage1 (lines : List Str) : List Str :=
  lines.takeWhile (fun l => !cutMatch l)

/-- Stage 2 (sanitizer.py lines 60-66): drop meta/application lines. -/
def stage2 (lines : List Str) : List Str :=
  lines.filter (fun l => !dropMatch l)

/-- The scan of stage 3 (sanitizer.py lines 69-78): first index (within the
first 60 lines) matching a section hint (start `max(0, i-2)`) or a bold
name line (start `i`); 0 if none. -/
def stage3Aux : Nat → List Str → Nat
  | _, [] => 0
  | i, l :: rest =>
    if secMatch l then i - 2
    else if boldNameLine l then i
    else stage3Aux (i + 1) rest

/-- `start_idx` of stage 3. -/
def stage3Start (lines : List Str) : Nat := stage3Aux 0 (lines.take 60)

/-- Stage 3 (sanitizer.py line 79): `filtered = filtered[start_idx:]`. -/
def stage3 (lines : List Str) : List Str := lines.drop (stage3Start lines)

/-- Stage 4 (sanitizer.py lines 81-91): collapse blank runs to at most two
empty lines and right-trim the rest; the counter is `blank_run`. -/
def stage4Aux : Nat → List Str → List Str
  | _, [] => []
  | run, l :: rest =>
    if (stripL l).isEmpty then
      if run + 1 ≤ 2 then [] :: stage4Aux (run + 1) rest
      else stage4Aux (run + 1) rest
    else rstripL l :: stage4Aux 0 rest

/-- Stage 4 entry point. -/
def stage4 (lines : List Str) : List Str := stage4Aux 0 lines

/-- `sanitize_resume_text` (sanitizer.py lines 45-93). -/
def sanitize_resume_text (text : Str) : Str :=
  if text.isEmpty then []
  else
    stripL (joinL ['\n']
      (stage4 (stage3 (stage2 (stage1 (splitlinesL text))))))

/-! ## Retrieval keywords (`app/retrieval/rag.py`) -/

/-- `CA_LEG_KEYWORDS` (rag.py lines 8-13). -/
def CA_LEG_KEYWORDS : List Str :=
  ["legislative", "constituent", "policy", "committee", "hearing",
   "briefing", "assembly", "senate", "district", "campaign", "constituency",
   "bill", "amendment", "stakeholder", "appropriations", "budget",
   "analysis", "communications", "outreach", "scheduling",
   "correspondence"].map String.data

/-- Python `term in text`: substring containment. -/
def containsSub (needle hay : Str) : Bool := (findOcc needle hay).isSome

/-- Maximal `\w`-runs of a string (the nonempty pieces of
`re.split(r"\W+", s)`; empty edge pieces are dropped — every caller
filters them out by a length bound anyway). -/
def wordRunsAux : Nat → Str → List Str
  | 0, _ => []
  | fuel + 1, s =>
    let pre := s.dropWhile (fun c => !isWordChar c)
    match pre with
    | [] => []
    | _ :: _ =>
      let r := pre.takeWhile isWordChar
      r :: wordRunsAux fuel (pre.drop r.length)

/-- Entry point for `wordRunsAux` (fuel: each step consumes ≥ 1 char). -/
def wordRuns (s : Str) : List Str := wordRunsAux s.length s

/-- `re.finditer(r"^[\*\-]\s*(.+?)(?:\n|$)", text, re.MULTILINE)` (rag.py
line 34): at each line start, a `*`/`-` bullet whose group is the first
nonempty run of non-newline characters after the (possibly
newline-crossing) whitespace following the bullet; scanning resumes after
the group's terminating newline.  When everything after a bullet is
whitespace, Python still matches with an all-whitespace group (stripped to
nothing by the caller) and no further bullet can exist; modeled as end of
scan. -/
def bulletAux : Nat → Bool → Str → List Str
  | 0, _, _ => []
  | _, _, [] => []
  | fuel + 1, atStart, c :: rest =>
    if atStart && (c = '*' || c = '-') then
      let u := rest.dropWhile pyWS
      match u with
      | [] => []
      | _ :: _ =>
        let g := u.takeWhile (fun d => d ≠ '\n')
        let after := u.drop g.length
        g :: bulletAux fuel true
          (match after with
           | '\n' :: r => r
           | _ => after)
    else bulletAux fuel (c = '\n') rest

/-- All bullet groups of `text` in order. -/
def bulletMatches (text : Str) : List Str := bulletAux text.length true text

/-- Greedy repetitions of `(?:\s+[A-Z][a-z]+)` (rag.py line 45), returning
the list of repetition strings and the remainder.  Each inner `\s+` /
`[a-z]+` is forced maximal (the following atom can never consume the same
characters), so greedy collection is exact. -/
def capRepsAux : Nat → Str → List Str × Str
  | 0, s => ([], s)
  | fuel + 1, s =>
    let w := s.takeWhile pyWS
    match w with
    | [] => ([], s)
    | _ :: _ =>
      match s.drop w.length with
      | c :: r =>
        if c.isUpper then
          let lr := r.takeWhile Char.isLower
          match lr with
          | [] => ([], s)
          | _ :: _ =>
            let p := capRepsAux fuel (r.drop lr.length)
            ((w ++ c :: lr) :: p.1, p.2)
        else ([], s)
      | [] => ([], s)

/-- One attempt of `\b([A-Z][a-z]+(?:\s+[A-Z][a-z]+)+)\b` at the current
position (the `\b` before the position is checked by the scanner): on
success, the matched phrase and the remainder.  If the word boundary after
the last repetition fails, the regex backtracks exactly one repetition
(after which a whitespace character guarantees the boundary); with a single
repetition left it fails. -/
def tryCap (s : Str) : Option (Str × Str) :=
  match s with
  | [] => none
  | c :: r =>
    if c.isUpper then
      let lr := r.takeWhile Char.isLower
      match lr with
      | [] => none
      | _ :: _ =>
        let p := capRepsAux r.length (r.drop lr.length)
        match p.1 with
        | [] => none
        | _ :: _ =>
          if boundaryAfter p.2 then some (c :: lr ++ p.1.flatten, p.2)
          else
            match p.1.dropLast, p.1.getLast? with
            | _, none => none
            | [], some _ => none
            | q :: qs, some lastRep =>
              some (c :: lr ++ (q :: qs).flatten, lastRep ++ p.2)
    else none

/-- `re.finditer` scan for the capitalized-phrase pattern: try each
position at which a word boundary precedes the text; on a match, resume
after it (the match's final character is a letter, so no boundary
immediately follows for the next position). -/
def capScanAux : Nat → Bool → Str → List Str
  | 0, _, _ => []
  | _, _, [] => []
  | fuel + 1, bnd, c :: rest =>
    if bnd then
      match tryCap (c :: rest) with
      | some (m, after) => m :: capScanAux fuel false after
      | none => capScanAux fuel (!isWordChar c) rest
    else capScanAux fuel (!isWordChar c) rest

/-- All capitalized multi-word phrases of `text`, in order. -/
def capPhrases (text : Str) : List Str := capScanAux text.length true text

/-- One guarded append to `(keywords, seen)`: every phase of
`extract_keywords` appends a candidate only when its phase condition holds
and the candidate is not yet in `seen`, then adds it to `seen`. -/
def pushKw (st : List Str × List Str) (c : Str × Bool) : List Str × List Str :=
  if c.2 = true ∧ c.1 ∉ st.2 then (st.1 ++ [c.1], c.1 :: st.2) else st

/-- The stopword set of phase 4 (rag.py line 52). -/
def stopWords : List Str :=
  ["that", "this", "with", "from", "have", "will", "your", "they", "when",
   "what"].map String.data

/-- `extract_keywords` (rag.py lines 16-59).  The four phases in order:
fixed CA-legislature terms found in the lowercased text; up to five
`\w`-words longer than 2 chars from each (stripped, 60-char-capped) bullet
group; lowercased capitalized multi-word phrases of length 3..40; and
lowercased `\w`-words of ≥ 4 letters not in the stopword set.  Finally the
list is truncated to `max_keywords` (a count, modeled as `Nat`). -/
def extract_keywords (text : Str) (maxKeywords : Nat := 25) : List Str :=
  if (stripL text).isEmpty then []
  else
    let textLower := toLowerStr text
    let ph1 : List (Str × Bool) :=
      CA_LEG_KEYWORDS.map (fun term => (term, containsSub term textLower))
    let ph2 : List (Str × Bool) :=
      (bulletMatches text).flatMap (fun g =>
        (((wordRuns ((stripL g).take 60)).filter
            (fun w => 2 < w.length)).take 5).map
          (fun w => (toLowerStr w, decide (2 < (toLowerStr w).length))))
    let ph3 : List (Str × Bool) :=
      (capPhrases text).map (fun ph =>
        (toLowerStr ph,
         decide (3 ≤ (toLowerStr ph).length ∧ (toLowerStr ph).length ≤ 40)))
    let ph4 : List (Str × Bool) :=
      ((wordRuns textLower).filter
        (fun r => 4 ≤ r.length && r.all Char.isLower)).map
        (fun w => (w, decide (w ∉ stopWords)))
    (((ph1 ++ ph2 ++ ph3 ++ ph4).foldl pushKw ([], [])).1).take maxKeywords

theorem pushKw_inv (st : List Str × List Str) (c : Str × Bool)
    (h1 : st.1.Nodup) (h2 : ∀ k ∈ st.1, k ∈ st.2) :
    (pushKw st c).1.Nodup ∧ ∀ k ∈ (pushKw st c).1, k ∈ (pushKw st c).2 := by
  rw [pushKw]
  split
  · rename_i hc
    constructor
    · rw [List.nodup_append]
      refine ⟨h1, List.nodup_singleton _, ?_⟩
      intro k hk hk1
      rw [List.mem_singleton] at hk1
      subst hk1
      exact hc.2 (h2 _ hk)
    · intro k hk
      rcases List.mem_append.mp hk with hk | hk
      · exact List.mem_cons_of_mem _ (h2 k hk)
      · rw [List.mem_singleton] at hk
        subst hk
        exact List.mem_cons_self ..
  · exact ⟨h1, h2⟩

theorem foldl_pushKw_inv (cands : List (Str × Bool)) :
    ∀ st : List Str × List Str, st.1.Nodup → (∀ k ∈ st.1, k ∈ st.2) →
      (cands.foldl pushKw st).1.Nodup := by
  induction cands with
  | nil =>
    intro st h1 _
    exact h1
  | cons c rest ih =>
    intro st h1 h2
    rw [List.foldl_cons]
    obtain ⟨g1, g2⟩ := pushKw_inv st c h1 h2
    exact ih _ g1 g2

theorem foldl_pushKw_take (cands : List (Str × Bool)) (n : Nat) :
    ((cands.foldl pushKw ([], [])).1.take n).Nodup ∧
    ((cands.foldl pushKw ([], [])).1.take n).length ≤ n := by
  constructor
  · exact List.Nodup.sublist (List.take_sublist _ _)
      (foldl_pushKw_inv cands ([], []) List.nodup_nil (by simp))
  · exact List.length_take_le _ _

/-- C9: `extract_keywords` returns a list with no duplicates (every phase
guards its append with the `seen` set) and at most `max_keywords` entries
(the final `[:max_keywords]` truncation); `max_keywords` is the count of
keywords to keep, modeled as `Nat`. -/
theorem extract_keywords_nodup_bounded (text : Str) (maxKeywords : Nat) :
    (extract_keywords text maxKeywords).Nodup ∧
    (extract_keywords text maxKeywords).length ≤ maxKeywords := by
  rw [extract_keywords]
  split
  · exact ⟨List.nodup_nil, by simp⟩
  · exact foldl_pushKw_take _ _

/-! ## Loaders (`app/ingestion/loaders.py`)

The pypdf / python-docx / filesystem collaborators are external: a scanned
file is modeled by its name, (already lowercased) extension, the first
component of its path relative to the scan root (the filename itself for
root-level files), and the outcome of the format-specific text extraction
(`.error` = the extractor raised). -/

/-- A file as seen by the directory scan. -/
structure SrcFile where
  name : String
  suffix : String
  topFolder : Option String
  raw : Except String String

/-- The supported extension set (loaders.py line 100). -/
def supportedExts : List String :=
  [".pdf", ".docx", ".doc", ".txt", ".md", ".markdown"]

/-- `str.lower()` on a Lean `String` (via the character-list model, so
that it evaluates by kernel reduction). -/
def lowerS (s : String) : String := (toLowerStr s.data).asString

/-- `Path.suffix.lower()` (our `suffix` field is stored as Python computes
it, but the scan lowercases defensively as the source does). -/
def lowerSuffix (f : SrcFile) : String := lowerS f.suffix

/-- `_infer_doc_type` (loaders.py lines 76-91). -/
def _infer_doc_type (f : SrcFile) : String :=
  match f.topFolder with
  | some folder =>
    if lowerS folder = "resumes" then "resume"
    else if lowerS folder = "experiences" then "experience"
    else if lowerS folder = "books" then "book"
    else "experience"
  | none => "experience"

/-- `str.strip()` on a Lean `String`. -/
def pyStripS (s : String) : String := (stripL s.data).asString

/-- `sanitize_resume_text` on a Lean `String`. -/
def sanitizeS (s : String) : String := (sanitize_resume_text s.data).asString

/-- `load_document` (loaders.py lines 51-73): format dispatch (the three
extractors are all modeled by `f.raw`), metadata construction, strip, and
sanitization with the `sanitized` flag for resumes. -/
def load_document (f : SrcFile) (docType : String) :
    Except String (String × Meta) :=
  if lowerSuffix f = ".pdf" ∨ lowerSuffix f ∈ [".docx", ".doc"]
      ∨ lowerSuffix f ∈ [".txt", ".md", ".markdown"] then
    match f.raw with
    | .error e => .error e
    | .ok text =>
      let metadata : Meta :=
        [("source", .pstr f.name), ("doc_type", .pstr docType)]
      let cleaned := pyStripS text
      if docType = "resume" then
        .ok (sanitizeS cleaned, metadata ++ [("sanitized", .pbool true)])
      else .ok (cleaned, metadata)
  else .error ("Unsupported file type: " ++ lowerSuffix f)

/-- The per-file step of `load_documents_from_dir` (loaders.py lines
101-110): unsupported extensions are skipped silently; a load failure
prints a warning and continues; a successful load yields the pair only when
`text` is truthy (nonempty). -/
def processFile (f : SrcFile) : List (String × Meta) × List String :=
  if lowerSuffix f ∈ supportedExts then
    match load_document f (_infer_doc_type f) with
    | .ok (text, md) => (if text = "" then [] else [(text, md)], [])
    | .error e =>
      ([], ["Warning: Could not load " ++ f.name ++ ": " ++ e])
  else ([], [])

/-- `load_documents_from_dir` (loaders.py lines 94-110) over the scanned
file list: the yielded `(text, metadata)` pairs and the printed warnings,
in scan order. -/
def load_documents_from_dir : List SrcFile → List (String × Meta) × List String
  | [] => ([], [])
  | f :: rest =>
    let p := processFile f
    let r := load_documents_from_dir rest
    (p.1 ++ r.1, p.2 ++ r.2)

/-- C10: a file whose extraction succeeds but whose (stripped, and for
resumes sanitized) text is empty contributes neither a `(text, metadata)`
pair nor a printed warning to the directory scan — it is skipped silently,
the `if text:` guard filtering it with no diagnostic. -/
theorem empty_extraction_skipped_silently (files₁ files₂ : List SrcFile)
    (f : SrcFile) (hsup : lowerSuffix f ∈ supportedExts)
    (hok : ∃ md, load_document f (_infer_doc_type f) = .ok ("", md)) :
    load_documents_from_dir (files₁ ++ f :: files₂)
      = load_documents_from_dir (files₁ ++ files₂) := by
  have hpf : processFile f = ([], []) := by
    obtain ⟨md, hmd⟩ := hok
    rw [processFile, if_pos hsup, hmd]
    simp
  have hcons : ∀ (g : SrcFile) (fs : List SrcFile),
      load_documents_from_dir (g :: fs)
        = ((processFile g).1 ++ (load_documents_from_dir fs).1,
           (processFile g).2 ++ (load_documents_from_dir fs).2) :=
    fun g fs => rfl
  induction files₁ with
  | nil =>
    rw [List.nil_append, hcons, hpf]
    simp
  | cons g rest ih =>
    rw [List.cons_append, hcons, List.cons_append, hcons, ih]

/-- Witness for `empty_extraction_skipped_silently`: a resume text file
whose content the sanitizer reduces to empty (a lone meta section); the
scan of just this file yields nothing and prints nothing. -/
theorem empty_extraction_skipped_silently_witness :
    load_documents_from_dir
        [⟨"r.txt", ".txt", some "resumes",
          .ok "Changes Made:\n- tweaked wording"⟩]
      = load_documents_from_dir [] ∧
    load_documents_from_dir [] = (([] : List (String × Meta)), ([] : List String)) := by
  constructor
  · exact empty_extraction_skipped_silently [] []
      ⟨"r.txt", ".txt", some "resumes", .ok "Changes Made:\n- tweaked wording"⟩
      (by decide)
      ⟨[("source", .pstr "r.txt"), ("doc_type", .pstr "resume"),
        ("sanitized", .pbool true)], by rfl⟩
  · rfl

/-! ### Sanitizer idempotence: string lemmas -/

theorem rstripL_cons (c : Char) (rest : Str) :
    rstripL (c :: rest)
      = if (rstripL rest).isEmpty && pyWS c then [] else c :: rstripL rest :=
  rfl

theorem lstripL_cons (c : Char) (rest : Str) :
    lstripL (c :: rest) = if pyWS c then lstripL rest else c :: rest := by
  rw [lstripL, List.dropWhile_cons]
  rfl

theorem lstripL_idem (l : Str) : lstripL (lstripL l) = lstripL l := by
  induction l with
  | nil => rfl
  | cons c rest ih =>
    rw [lstripL_cons]
    by_cases hc : pyWS c = true
    · rw [if_pos hc]
      exact ih
    · simp only [Bool.not_eq_true] at hc
      rw [if_neg (by simp [hc]), lstripL_cons, if_neg (by simp [hc])]

theorem rstripL_idem (l : Str) : rstripL (rstripL l) = rstripL l := by
  induction l with
  | nil => rfl
  | cons c rest ih =>
    rw [rstripL_cons]
    by_cases h : ((rstripL rest).isEmpty && pyWS c) = true
    · rw [if_pos h]
      rfl
    · rw [if_neg h, rstripL_cons, ih, if_neg h]

theorem lstripL_rstripL_comm (l : Str) :
    rstripL (lstripL l) = lstripL (rstripL l) := by
  induction l with
  | nil => rfl
  | cons c rest ih =>
    rw [lstripL_cons, rstripL_cons]
    by_cases hc : pyWS c = true
    · rw [if_pos hc, ih]
      by_cases he : (rstripL rest).isEmpty = true
      · rw [if_pos (by simp [he, hc])]
        rw [List.isEmpty_eq_true] at he
        rw [he]
      · rw [if_neg (by simp [he]), lstripL_cons, if_pos hc]
    · rw [if_neg (by simp [hc]), if_neg (by simp [hc])]
      rw [rstripL_cons, if_neg (by simp [hc]), lstripL_cons,
        if_neg (by simp [hc])]

theorem rstripL_stripL (l : Str) : rstripL (stripL l) = stripL l := by
  rw [stripL, lstripL_rstripL_comm, rstripL_idem]

theorem stripL_idem (l : Str) : stripL (stripL l) = stripL l := by
  rw [stripL, rstripL_stripL]
  rw [stripL, lstripL_idem]

theorem rstripL_eq_nil_of_ws {w : Str} (h : ∀ c ∈ w, pyWS c = true) :
    rstripL w = [] := by
  induction w with
  | nil => rfl
  | cons c rest ih =>
    rw [rstripL_cons]
    rw [ih (fun d hd => h d (List.mem_cons_of_mem _ hd))]
    simp [h c (List.mem_cons_self ..)]

theorem stripL_eq_nil_of_ws {w : Str} (h : ∀ c ∈ w, pyWS c = true) :
    stripL w = [] := by
  rw [stripL, rstripL_eq_nil_of_ws h]
  rfl

theorem rstripL_append_ws {x w : Str} (h : ∀ c ∈ w, pyWS c = true) :
    rstripL (x ++ w) = rstripL x := by
  induction x with
  | nil => simpa using rstripL_eq_nil_of_ws h
  | cons c rest ih =>
    rw [List.cons_append, rstripL_cons, ih, rstripL_cons]

theorem rstripL_append_of_ne_nil {A lst : Str} (h : rstripL lst ≠ []) :
    rstripL (A ++ lst) = A ++ rstripL lst := by
  induction A with
  | nil => rfl
  | cons c rest ih =>
    rw [List.cons_append, rstripL_cons, ih]
    have hne : (rest ++ rstripL lst).isEmpty = false := by
      cases hr : rest ++ rstripL lst with
      | nil =>
        rcases List.append_eq_nil.mp hr with ⟨_, h2⟩
        exact absurd h2 h
      | cons a b => rfl
    rw [if_neg (by simp [hne]), List.cons_append]

theorem lstripL_append_of_ne_nil {h X : Str} (hne : lstripL h ≠ []) :
    lstripL (h ++ X) = lstripL h ++ X := by
  induction h with
  | nil => exact absurd rfl hne
  | cons c rest ih =>
    rw [List.cons_append, lstripL_cons, lstripL_cons]
    by_cases hc : pyWS c = true
    · have hr : lstripL rest ≠ [] := by
        intro hcon
        apply hne
        rw [lstripL_cons, if_pos hc]
        exact hcon
      rw [if_pos hc, if_pos hc]
      exact ih hr
    · simp only [Bool.not_eq_true] at hc
      rw [if_neg (by simp [hc]), if_neg (by simp [hc]), List.cons_append]

theorem mem_rstripL {c : Char} {l : Str} (h : c ∈ rstripL l) : c ∈ l := by
  induction l with
  | nil => simp [rstripL] at h
  | cons a rest ih =>
    rw [rstripL_cons] at h
    by_cases hb : ((rstripL rest).isEmpty && pyWS a) = true
    · rw [if_pos hb] at h
      simp at h
    · rw [if_neg hb] at h
      rcases List.mem_cons.mp h with h | h
      · exact h ▸ List.mem_cons_self ..
      · exact List.mem_cons_of_mem _ (ih h)

theorem mem_lstripL {c : Char} {l : Str} (h : c ∈ lstripL l) : c ∈ l :=
  (List.dropWhile_sublist _).mem h

theorem lstripL_ne_nil_of_stripL {l : Str} (h : stripL l ≠ []) :
    lstripL l ≠ [] := by
  intro hcon
  apply h
  have hws : ∀ c ∈ l, pyWS c = true := by
    intro c hc
    by_contra hnc
    simp only [Bool.not_eq_true] at hnc
    have hl : lstripL l ≠ [] := by
      rw [lstripL]
      intro hd
      have := List.dropWhile_eq_nil_iff.mp hd c hc
      rw [hnc] at this
      simp at this
    exact hl hcon
  exact stripL_eq_nil_of_ws hws

/-! ### Sanitizer idempotence: join / splitlines lemmas -/

theorem joinL_cons_ne (sep : Str) (x : Str) {rest : List Str}
    (h : rest ≠ []) : joinL sep (x :: rest) = x ++ sep ++ joinL sep rest := by
  cases rest with
  | nil => exact absurd rfl h
  | cons y ys => rfl

theorem joinL_append (sep : Str) {xs ys : List Str} (hx : xs ≠ [])
    (hy : ys ≠ []) :
    joinL sep (xs ++ ys) = joinL sep xs ++ sep ++ joinL sep ys := by
  induction xs with
  | nil => exact absurd rfl hx
  | cons x xs ih =>
    cases xs with
    | nil =>
      rw [List.singleton_append, joinL_cons_ne sep x hy]
      rfl
    | cons x2 xs2 =>
      rw [List.cons_append, joinL_cons_ne sep x (by simp),
        joinL_cons_ne sep x (by simp), ih (by simp)]
      simp [List.append_assoc]

theorem splitNlAux_no_nl {s : Str} (h : '\n' ∉ s) :
    ∀ cur, splitNlAux s cur = [cur.reverse ++ s] := by
  induction s with
  | nil =>
    intro cur
    simp [splitNlAux]
  | cons c rest ih =>
    intro cur
    have hc : c ≠ '\n' := by
      intro hcc
      exact h (hcc ▸ List.mem_cons_self ..)
    have hr : '\n' ∉ rest := fun hm => h (List.mem_cons_of_mem _ hm)
    rw [show splitNlAux (c :: rest) cur = splitNlAux rest (c :: cur) from by
      rw [splitNlAux.eq_def]
      split
      · rename_i heq
        exact absurd heq (by simp)
      · rename_i heq
        obtain ⟨h1, h2⟩ := List.cons.inj heq
        exact absurd h1 hc
      · rename_i heq
        obtain ⟨h1, h2⟩ := List.cons.inj heq
        rw [h1, h2]]
    rw [ih hr]
    simp

theorem splitNlAux_append {l : Str} (h : '\n' ∉ l) (s : Str) :
    ∀ cur, splitNlAux (l ++ s) cur = splitNlAux s (l.reverse ++ cur) := by
  induction l with
  | nil =>
    intro cur
    simp
  | cons c rest ih =>
    intro cur
    have hc : c ≠ '\n' := by
      intro hcc
      exact h (hcc ▸ List.mem_cons_self ..)
    have hr : '\n' ∉ rest := fun hm => h (List.mem_cons_of_mem _ hm)
    rw [List.cons_append]
    rw [show splitNlAux (c :: (rest ++ s)) cur
        = splitNlAux (rest ++ s) (c :: cur) from by
      rw [splitNlAux.eq_def]
      split
      · rename_i heq
        exact absurd heq (by simp)
      · rename_i heq
        obtain ⟨h1, h2⟩ := List.cons.inj heq
        exact absurd h1 hc
      · rename_i heq
        obtain ⟨h1, h2⟩ := List.cons.inj heq
        rw [h1, h2]]
    rw [ih hr (c :: cur)]
    congr 1
    simp

theorem splitNlAux_lines_no_nl :
    ∀ (s cur : Str), '\n' ∉ cur → ∀ l ∈ splitNlAux s cur, '\n' ∉ l := by
  intro s
  induction s with
  | nil =>
    intro cur hcur l hl
    simp only [splitNlAux, List.mem_singleton] at hl
    subst hl
    simpa using hcur
  | cons c rest ih =>
    intro cur hcur l hl
    by_cases hc : c = '\n'
    · subst hc
      rw [show splitNlAux ('\n' :: rest) cur
          = cur.reverse :: splitNlAux rest [] from rfl] at hl
      rcases List.mem_cons.mp hl with hl | hl
      · subst hl
        simpa using hcur
      · exact ih [] (by simp) l hl
    · rw [show splitNlAux (c :: rest) cur = splitNlAux rest (c :: cur) from by
        rw [splitNlAux.eq_def]
        split
        · rename_i heq
          exact absurd heq (by simp)
        · rename_i heq
          obtain ⟨h1, h2⟩ := List.cons.inj heq
          exact absurd h1 hc
        · rename_i heq
          obtain ⟨h1, h2⟩ := List.cons.inj heq
          rw [h1, h2]] at hl
      refine ih (c :: cur) ?_ l hl
      intro hmem
      rcases List.mem_cons.mp hmem with hmem | hmem
      · exact hc hmem.symm
      · exact hcur hmem

theorem splitlinesL_no_nl (s : Str) : ∀ l ∈ splitlinesL s, '\n' ∉ l := by
  intro l hl
  rw [splitlinesL] at hl
  by_cases he : s.isEmpty = true
  · rw [if_pos he] at hl
    simp at hl
  · rw [if_neg he] at hl
    have hall := splitNlAux_lines_no_nl s [] (by simp)
    by_cases hlast : s.getLast? = some '\n'
    · rw [if_pos hlast] at hl
      exact hall l ((List.dropLast_sublist _).mem hl)
    · rw [if_neg hlast] at hl
      exact hall l hl

theorem splitNlAux_cons_nl (rest cur : Str) :
    splitNlAux ('\n' :: rest) cur = cur.reverse :: splitNlAux rest [] := rfl

theorem splitNlAux_joinL :
    ∀ (ls : List Str), ls ≠ [] → (∀ l ∈ ls, '\n' ∉ l) →
      splitNlAux (joinL ['\n'] ls) [] = ls := by
  intro ls
  induction ls with
  | nil => exact fun h _ => absurd rfl h
  | cons l rest ih =>
    intro _ hnl
    cases rest with
    | nil =>
      rw [show joinL ['\n'] [l] = l from rfl]
      rw [splitNlAux_no_nl (hnl l (List.mem_cons_self ..)) []]
      simp
    | cons l2 rest2 =>
      rw [joinL_cons_ne _ _ (by simp)]
      rw [List.append_assoc]
      rw [splitNlAux_append (hnl l (List.mem_cons_self ..)) _ []]
      rw [show ['\n'] ++ joinL ['\n'] (l2 :: rest2)
          = '\n' :: joinL ['\n'] (l2 :: rest2) from rfl]
      rw [splitNlAux_cons_nl]
      rw [ih (by simp) (fun g hg => hnl g (List.mem_cons_of_mem _ hg))]
      simp

theorem joinL_getLast? (ls : List Str) (lst : Str) (h : ls.getLast? = some lst)
    (hne : lst ≠ []) :
    (joinL ['\n'] ls).getLast? = lst.getLast? := by
  induction ls with
  | nil => simp at h
  | cons l rest ih =>
    cases rest with
    | nil =>
      simp only [List.getLast?_singleton, Option.some.injEq] at h
      subst h
      rfl
    | cons l2 rest2 =>
      rw [show (l :: l2 :: rest2).getLast? = (l2 :: rest2).getLast? from by
        rw [show l :: l2 :: rest2 = [l] ++ l2 :: rest2 from rfl,
          List.getLast?_append_cons]] at h
      rw [joinL_cons_ne _ _ (by simp), List.append_assoc]
      rw [List.getLast?_append_of_ne_nil _ (by simp)]
      have hx := ih h
      have hj : joinL ['\n'] (l2 :: rest2) ≠ [] := by
        intro h0
        rw [h0] at hx
        rw [List.getLast?_eq_getLast_of_ne_nil hne] at hx
        simp at hx
      rw [show ['\n'] ++ joinL ['\n'] (l2 :: rest2)
          = ['\n'] ++ joinL ['\n'] (l2 :: rest2) from rfl]
      rw [List.getLast?_append_of_ne_nil _ hj]
      exact hx

theorem splitlinesL_joinL (ls : List Str) (hnl : ∀ l ∈ ls, '\n' ∉ l)
    (lst : Str) (hlast : ls.getLast? = some lst) (hlstne : lst ≠ []) :
    splitlinesL (joinL ['\n'] ls) = ls := by
  have hlstmem : lst ∈ ls := by
    rcases List.mem_getLast?_eq_getLast (by rw [hlast]; rfl) with ⟨hw, hx⟩
    rw [hx]
    exact List.getLast_mem hw
  have hgl := joinL_getLast? ls lst hlast hlstne
  have hlschr : ∀ c ∈ lst, c ≠ '\n' := by
    intro c hc hcc
    exact hnl lst hlstmem (hcc ▸ hc)
  have hj : joinL ['\n'] ls ≠ [] := by
    intro h0
    rw [h0] at hgl
    rw [List.getLast?_eq_getLast_of_ne_nil hlstne] at hgl
    simp at hgl
  have hnotnl : ¬ (joinL ['\n'] ls).getLast? = some '\n' := by
    rw [hgl, List.getLast?_eq_getLast_of_ne_nil hlstne]
    intro hcon
    have := hlschr _ (List.getLast_mem hlstne)
    simp only [Option.some.injEq] at hcon
    exact this hcon
  rw [splitlinesL, if_neg (by simp [hj]), if_neg hnotnl]
  have hne : ls ≠ [] := by
    intro h0
    rw [h0] at hlast
    simp at hlast
  exact splitNlAux_joinL ls hne hnl

/-! ### Sanitizer idempotence: stage-4 structure -/

/-- Shape of a line in `stage4`'s output: the empty line (emitted for
blanks) or a right-trimmed, non-blank, newline-free line. -/
def goodLine (l : Str) : Prop :=
  l = [] ∨ (rstripL l = l ∧ stripL l ≠ [] ∧ '\n' ∉ l)

/-- Blank-run bookkeeping: reading the list with `blank_run = r`, no blank
line extends a run beyond two. -/
def okBlank : Nat → List Str → Prop
  | _, [] => True
  | r, l :: rest =>
    if l = [] then r ≤ 1 ∧ okBlank (r + 1) rest else okBlank 0 rest

theorem rstripL_ne_nil_of_stripL {l : Str} (h : stripL l ≠ []) :
    rstripL l ≠ [] := by
  intro hcon
  apply h
  rw [stripL, hcon]
  rfl

theorem stripL_rstripL (l : Str) : stripL (rstripL l) = stripL l := by
  rw [stripL, rstripL_idem, stripL]

theorem stage4Aux_eq_self :
    ∀ (z : List Str) (r : Nat), (∀ l ∈ z, goodLine l) → okBlank r z →
      stage4Aux r z = z := by
  intro z
  induction z with
  | nil => intro r _ _; rfl
  | cons l rest ih =>
    intro r hg hok
    rcases hg l (List.mem_cons_self ..) with hl | ⟨hr1, hr2, _⟩
    · subst hl
      rw [okBlank] at hok
      rw [if_pos rfl] at hok
      rw [stage4Aux, if_pos (by simp [stripL, rstripL, lstripL]),
        if_pos (by omega)]
      rw [ih _ (fun g hg2 => hg g (List.mem_cons_of_mem _ hg2)) hok.2]
    · have hne : ((stripL l).isEmpty = true) = False := by
        simp [hr2]
      rw [stage4Aux, if_neg (by simp [hr2]), hr1]
      have hok' : okBlank 0 rest := by
        rw [okBlank] at hok
        rw [if_neg (by
          intro h0
          apply hr2
          rw [h0]
          rfl)] at hok
        exact hok
      rw [ih _ (fun g hg2 => hg g (List.mem_cons_of_mem _ hg2)) hok']

theorem stage4Aux_good :
    ∀ (w : List Str) (r : Nat), (∀ l ∈ w, '\n' ∉ l) →
      ∀ l ∈ stage4Aux r w, goodLine l := by
  intro w
  induction w with
  | nil => intro r _ l hl; simp [stage4Aux] at hl
  | cons l0 rest ih =>
    intro r hnl l hl
    rw [stage4Aux] at hl
    by_cases hb : (stripL l0).isEmpty = true
    · rw [if_pos hb] at hl
      by_cases hrun : r + 1 ≤ 2
      · rw [if_pos hrun] at hl
        rcases List.mem_cons.mp hl with hl | hl
        · exact Or.inl hl
        · exact ih _ (fun g hg => hnl g (List.mem_cons_of_mem _ hg)) l hl
      · rw [if_neg hrun] at hl
        exact ih _ (fun g hg => hnl g (List.mem_cons_of_mem _ hg)) l hl
    · rw [if_neg hb] at hl
      rcases List.mem_cons.mp hl with hl | hl
      · subst hl
        refine Or.inr ⟨rstripL_idem l0, ?_, ?_⟩
        · rw [stripL_rstripL]
          simpa using hb
        · intro hmem
          exact hnl l0 (List.mem_cons_self ..) (mem_rstripL hmem)
      · exact ih _ (fun g hg => hnl g (List.mem_cons_of_mem _ hg)) l hl

theorem okBlank_mono : ∀ (xs : List Str) (m n : Nat), m ≤ n →
    okBlank n xs → okBlank m xs := by
  intro xs
  induction xs with
  | nil => intro m n _ _; trivial
  | cons l rest ih =>
    intro m n hmn hok
    rw [okBlank] at hok ⊢
    by_cases hl : l = []
    · rw [if_pos hl] at hok ⊢
      exact ⟨by omega, ih _ _ (by omega) hok.2⟩
    · rw [if_neg hl] at hok ⊢
      exact hok

theorem stage4Aux_okBlank :
    ∀ (w : List Str) (r : Nat), okBlank r (stage4Aux r w) := by
  intro w
  induction w with
  | nil => intro r; trivial
  | cons l0 rest ih =>
    intro r
    rw [stage4Aux]
    by_cases hb : (stripL l0).isEmpty = true
    · by_cases hrun : r + 1 ≤ 2
      · rw [if_pos hb, if_pos hrun, okBlank, if_pos rfl]
        exact ⟨by omega, ih (r + 1)⟩
      · rw [if_pos hb, if_neg hrun]
        exact okBlank_mono _ r (r + 1) (by omega) (ih (r + 1))
    · rw [if_neg hb, okBlank]
      rw [if_neg (by
        intro h0
        apply hb
        have : stripL l0 ≠ [] := by
          intro hs
          apply hb
          simp [hs]
        exact absurd (h0 ▸ rfl : rstripL l0 = [])
          (rstripL_ne_nil_of_stripL this))]
      exact ih 0

theorem okBlank_append_left :
    ∀ (xs ys : List Str) (r : Nat), okBlank r (xs ++ ys) → okBlank r xs := by
  intro xs
  induction xs with
  | nil => intro ys r _; trivial
  | cons l rest ih =>
    intro ys r hok
    rw [List.cons_append, okBlank] at hok
    rw [okBlank]
    by_cases hl : l = []
    · rw [if_pos hl] at hok ⊢
      exact ⟨hok.1, ih ys _ hok.2⟩
    · rw [if_neg hl] at hok ⊢
      exact ih ys _ hok

theorem okBlank_dropWhile :
    ∀ (xs : List Str) (r : Nat), okBlank r xs →
      okBlank 0 (xs.dropWhile (fun l => l.isEmpty)) := by
  intro xs
  induction xs with
  | nil => intro r _; trivial
  | cons l rest ih =>
    intro r hok
    rw [okBlank] at hok
    rw [List.dropWhile_cons]
    by_cases hl : l = []
    · rw [if_pos hl] at hok
      rw [if_pos (by simp [hl])]
      exact ih _ hok.2
    · rw [if_neg hl] at hok
      rw [if_neg (by simp [hl])]
      rw [okBlank, if_neg hl]
      exact hok

/-! ### Sanitizer idempotence: trimming and strip-over-join -/

/-- Leading blank lines removed (effect of the final `strip()` on the
joined output's front). -/
def dropLeadingBlanks (out : List Str) : List Str :=
  out.dropWhile (fun l => l.isEmpty)

/-- Trailing blank lines removed. -/
def dropTrailingBlanks (out : List Str) : List Str :=
  (out.reverse.dropWhile (fun l => l.isEmpty)).reverse

/-- Both ends trimmed of blank lines. -/
def trimBlanks (out : List Str) : List Str :=
  dropTrailingBlanks (dropLeadingBlanks out)

theorem joinL_singleton (sep x : Str) : joinL sep [x] = x := rfl

theorem dropTrailingBlanks_decomp (A : List Str) :
    A = dropTrailingBlanks A
      ++ (A.reverse.takeWhile (fun l => l.isEmpty)).reverse := by
  rw [dropTrailingBlanks, ← List.reverse_append,
    List.takeWhile_append_dropWhile, List.reverse_reverse]

theorem head_dropWhile_not {α : Type} (p : α → Bool) :
    ∀ (xs : List α) (y : α) (ys : List α),
      xs.dropWhile p = y :: ys → p y = false := by
  intro xs
  induction xs with
  | nil => intro y ys h; simp at h
  | cons a rest ih =>
    intro y ys h
    rw [List.dropWhile_cons] at h
    by_cases ha : p a = true
    · rw [if_pos ha] at h
      exact ih y ys h
    · rw [if_neg ha] at h
      obtain ⟨h1, _⟩ := List.cons.inj h
      rw [← h1]
      simpa using ha

theorem mem_dropLeadingBlanks {l : Str} {A : List Str}
    (h : l ∈ dropLeadingBlanks A) : l ∈ A :=
  (List.dropWhile_sublist _).mem h

theorem mem_dropTrailingBlanks {l : Str} {A : List Str}
    (h : l ∈ dropTrailingBlanks A) : l ∈ A := by
  rw [dropTrailingBlanks] at h
  rw [List.mem_reverse] at h
  have := (List.dropWhile_sublist _).mem h
  rwa [List.mem_reverse] at this

theorem trimBlanks_head_ne_nil {A : List Str} {l₁ : Str} {rest : List Str}
    (h : trimBlanks A = l₁ :: rest) : l₁ ≠ [] := by
  have hdec := dropTrailingBlanks_decomp (dropLeadingBlanks A)
  rw [trimBlanks] at h
  rw [h] at hdec
  rw [List.cons_append] at hdec
  have : (dropLeadingBlanks A) = l₁ :: (rest
      ++ ((dropLeadingBlanks A).reverse.takeWhile
        (fun l => l.isEmpty)).reverse) := hdec
  have hp := head_dropWhile_not (fun l : Str => l.isEmpty) A l₁ _ this
  simpa using hp

theorem trimBlanks_last_ne_nil {A : List Str} {lst : Str}
    (h : (trimBlanks A).getLast? = some lst) : lst ≠ [] := by
  rw [trimBlanks, dropTrailingBlanks] at h
  rw [List.getLast?_reverse] at h
  cases hd : (dropLeadingBlanks A).reverse.dropWhile (fun l => l.isEmpty) with
  | nil => rw [hd] at h; simp at h
  | cons y ys =>
    rw [hd] at h
    simp only [List.head?_cons, Option.some.injEq] at h
    subst h
    have := head_dropWhile_not (fun l : Str => l.isEmpty) _ _ _ hd
    simpa using this

theorem okBlank_trimBlanks {A : List Str} (h : okBlank 0 A) :
    okBlank 0 (trimBlanks A) := by
  have h1 : okBlank 0 (dropLeadingBlanks A) := okBlank_dropWhile A 0 h
  have hdec := dropTrailingBlanks_decomp (dropLeadingBlanks A)
  rw [trimBlanks]
  exact okBlank_append_left _ _ 0 (hdec ▸ h1)

theorem joinL_all_blank :
    ∀ (bs : List Str), (∀ l ∈ bs, l = []) → bs ≠ [] →
      joinL ['\n'] bs = List.replicate (bs.length - 1) '\n' := by
  intro bs
  induction bs with
  | nil => intro _ h; exact absurd rfl h
  | cons l rest ih =>
    intro hb _
    have hl : l = [] := hb l (List.mem_cons_self ..)
    cases rest with
    | nil => rw [hl]; rfl
    | cons l2 rest2 =>
      rw [joinL_cons_ne _ _ (by simp), hl,
        ih (fun g hg => hb g (List.mem_cons_of_mem _ hg)) (by simp)]
      simp only [List.nil_append, List.length_cons]
      simp [List.replicate_succ]

theorem lstripL_joinL_blanks :
    ∀ (bs : List Str), (∀ l ∈ bs, l = []) → ∀ (z : List Str), z ≠ [] →
      lstripL (joinL ['\n'] (bs ++ z)) = lstripL (joinL ['\n'] z) := by
  intro bs
  induction bs with
  | nil => intro _ z _; rfl
  | cons b bs' ih =>
    intro hb z hz
    have hbn : b = [] := hb b (List.mem_cons_self ..)
    subst hbn
    rw [List.cons_append,
      joinL_cons_ne _ _ (by
        intro h0
        rcases List.append_eq_nil.mp h0 with ⟨_, h2⟩
        exact hz h2)]
    rw [show ([] : Str) ++ ['\n'] ++ joinL ['\n'] (bs' ++ z)
        = '\n' :: joinL ['\n'] (bs' ++ z) from by simp]
    rw [show lstripL ('\n' :: joinL ['\n'] (bs' ++ z))
        = lstripL (joinL ['\n'] (bs' ++ z)) from by
      rw [lstripL_cons, if_pos (by simp [pyWS])]]
    exact ih (fun g hg => hb g (List.mem_cons_of_mem _ hg)) z hz

theorem lstripL_joinL_head (h : Str) (rest : List Str)
    (hh : stripL h ≠ []) :
    lstripL (joinL ['\n'] (h :: rest)) = joinL ['\n'] (lstripL h :: rest) := by
  have hlne : lstripL h ≠ [] := lstripL_ne_nil_of_stripL hh
  cases rest with
  | nil => rfl
  | cons l2 rest2 =>
    rw [joinL_cons_ne ['\n'] h (show l2 :: rest2 ≠ [] by simp)]
    rw [joinL_cons_ne ['\n'] (lstripL h) (show l2 :: rest2 ≠ [] by simp)]
    rw [List.append_assoc, List.append_assoc]
    rw [lstripL_append_of_ne_nil hlne]

theorem rstripL_joinL_good (z : List Str) (lst : Str)
    (hlast : z.getLast? = some lst) (hlstne : lst ≠ [])
    (hlstr : rstripL lst = lst) :
    rstripL (joinL ['\n'] z) = joinL ['\n'] z := by
  induction z using List.reverseRecOn with
  | nil => simp at hlast
  | append_singleton init lst' _ =>
    rw [List.getLast?_append_of_ne_nil _ (by simp)] at hlast
    simp only [List.getLast?_singleton, Option.some.injEq] at hlast
    subst hlast
    cases init with
    | nil =>
      simp only [List.nil_append]
      rw [joinL_singleton]
      exact hlstr
    | cons i0 irest =>
      rw [joinL_append _ (by simp) (by simp)]
      rw [joinL_singleton]
      rw [rstripL_append_of_ne_nil (by rw [hlstr]; exact hlstne)]
      rw [hlstr]

theorem rstripL_joinL_trailing_blanks (z : List Str) (hz : z ≠ [])
    (bs : List Str) (hb : ∀ l ∈ bs, l = []) :
    rstripL (joinL ['\n'] (z ++ bs)) = rstripL (joinL ['\n'] z) := by
  cases bs with
  | nil => rw [List.append_nil]
  | cons b bs' =>
    rw [joinL_append _ hz (by simp)]
    rw [joinL_all_blank _ hb (by simp)]
    rw [List.append_assoc]
    rw [rstripL_append_ws]
    intro c hc
    rcases List.mem_append.mp hc with hc | hc
    · rw [List.mem_singleton.mp hc]
      rfl
    · rw [List.eq_of_mem_replicate hc]
      rfl

theorem trimBlanks_nil_all_blank {out : List Str}
    (ht : trimBlanks out = []) : ∀ l ∈ out, l = [] := by
  intro l hl
  by_contra hne
  -- out = takeWhile blank ++ dropLeadingBlanks out
  have hsplit := (List.takeWhile_append_dropWhile
    (p := fun l : Str => l.isEmpty) (l := out)).symm
  rcases hdl : dropLeadingBlanks out with _ | ⟨h1, hrest⟩
  · -- everything is a leading blank
    have : l ∈ out.takeWhile (fun l => l.isEmpty) := by
      rw [dropLeadingBlanks] at hdl
      rw [hsplit, hdl, List.append_nil] at hl
      exact hl
    have := List.mem_takeWhile_imp this
    simp at this
    exact hne this
  · have hh1 : h1 ≠ [] := by
      have := head_dropWhile_not (fun l : Str => l.isEmpty) out h1 hrest hdl
      simpa using this
    -- but trimBlanks out = [] forces every element of dropLeadingBlanks out
    -- to be blank, contradicting h1
    rw [trimBlanks, hdl] at ht
    rw [dropTrailingBlanks] at ht
    have : (h1 :: hrest).reverse.dropWhile (fun l => l.isEmpty) = [] := by
      cases hdw : (h1 :: hrest).reverse.dropWhile (fun l => l.isEmpty) with
      | nil => rfl
      | cons a b =>
        rw [hdw] at ht
        simp at ht
    have hall := List.dropWhile_eq_nil_iff.mp this
    have hmem : h1 ∈ (h1 :: hrest).reverse := by
      rw [List.mem_reverse]
      exact List.mem_cons_self ..
    have := hall h1 hmem
    simp at this
    exact hh1 this

theorem strip_join_all_blank {out : List Str} (h : ∀ l ∈ out, l = []) :
    stripL (joinL ['\n'] out) = [] := by
  cases out with
  | nil => rfl
  | cons l rest =>
    rw [joinL_all_blank _ h (by simp)]
    apply stripL_eq_nil_of_ws
    intro c hc
    rw [List.eq_of_mem_replicate hc]
    rfl

theorem joinL_ne_nil_of_head {a : Str} (ha : a ≠ []) (rest : List Str) :
    joinL ['\n'] (a :: rest) ≠ [] := by
  cases rest with
  | nil => exact ha
  | cons b rest2 =>
    rw [joinL_cons_ne _ _ (by simp)]
    intro h0
    rcases List.append_eq_nil.mp h0 with ⟨h1, _⟩
    rcases List.append_eq_nil.mp h1 with ⟨h2, _⟩
    exact ha h2

/-- The final `strip()` of the joined stage-4 output: the leading blank
lines disappear, the first surviving line is left-stripped, trailing blank
lines disappear. -/
theorem strip_join_trim {out : List Str} (hg : ∀ l ∈ out, goodLine l)
    {l₁ : Str} {rest : List Str} (ht : trimBlanks out = l₁ :: rest) :
    stripL (joinL ['\n'] out) = joinL ['\n'] (lstripL l₁ :: rest) := by
  have hsplit := (List.takeWhile_append_dropWhile
    (p := fun l : Str => l.isEmpty) (l := out)).symm
  have hdec := dropTrailingBlanks_decomp (dropLeadingBlanks out)
  rw [trimBlanks] at ht
  rw [ht] at hdec
  -- names for the blank affixes
  have hB1 : ∀ l ∈ out.takeWhile (fun l : Str => l.isEmpty), l = [] := by
    intro l hl
    have := List.mem_takeWhile_imp hl
    simpa using this
  have hB2 : ∀ l ∈ ((dropLeadingBlanks out).reverse.takeWhile
      (fun l : Str => l.isEmpty)).reverse, l = [] := by
    intro l hl
    rw [List.mem_reverse] at hl
    have := List.mem_takeWhile_imp hl
    simpa using this
  have hmem_trim : ∀ l ∈ l₁ :: rest, l ∈ out := by
    intro l hl
    exact mem_dropLeadingBlanks (mem_dropTrailingBlanks (ht ▸ hl))
  have hl₁ne : l₁ ≠ [] := trimBlanks_head_ne_nil (by rw [trimBlanks, ht])
  have hl₁good := hg l₁ (hmem_trim l₁ (List.mem_cons_self ..))
  rcases hl₁good with h0 | ⟨hl₁r, hl₁s, _⟩
  · exact absurd h0 hl₁ne
  -- the last line of the trim
  have hlast := List.getLast?_eq_getLast_of_ne_nil
    (show l₁ :: rest ≠ [] by simp)
  set lst := (l₁ :: rest).getLast (by simp) with hlstdef
  have hlstne : lst ≠ [] := by
    apply trimBlanks_last_ne_nil (A := out)
    rw [trimBlanks, ht]
    exact hlast
  have hlstgood := hg lst (hmem_trim lst (List.getLast_mem _))
  rcases hlstgood with h0 | ⟨hlstr, _, _⟩
  · exact absurd h0 hlstne
  -- rewrite out as B1 ++ ((l₁ :: rest) ++ B2)
  rw [show joinL ['\n'] out
      = joinL ['\n'] (out.takeWhile (fun l : Str => l.isEmpty)
        ++ ((l₁ :: rest)
          ++ ((dropLeadingBlanks out).reverse.takeWhile
            (fun l : Str => l.isEmpty)).reverse)) from by
    rw [← hdec]
    exact congrArg _ hsplit]
  rw [stripL]
  rw [show out.takeWhile (fun l : Str => l.isEmpty)
        ++ ((l₁ :: rest)
          ++ ((dropLeadingBlanks out).reverse.takeWhile
            (fun l : Str => l.isEmpty)).reverse)
      = (out.takeWhile (fun l : Str => l.isEmpty) ++ (l₁ :: rest))
          ++ ((dropLeadingBlanks out).reverse.takeWhile
            (fun l : Str => l.isEmpty)).reverse from by
    rw [List.append_assoc]]
  rw [rstripL_joinL_trailing_blanks _ (by simp) _ hB2]
  rw [rstripL_joinL_good _ lst ?hlast2 hlstne hlstr]
  case hlast2 =>
    rw [List.getLast?_append_of_ne_nil _ (by simp)]
    exact hlast
  rw [lstripL_joinL_blanks _ hB1 _ (by simp)]
  exact lstripL_joinL_head l₁ rest hl₁s

theorem stage1_eq_self {lines : List Str}
    (h : ∀ l ∈ lines, cutMatch l = false) : stage1 lines = lines := by
  rw [stage1]
  induction lines with
  | nil => rfl
  | cons l rest ih =>
    rw [List.takeWhile_cons, h l (List.mem_cons_self ..)]
    simp only [Bool.not_false, if_true]
    rw [ih (fun g hg => h g (List.mem_cons_of_mem _ hg))]

theorem stage2_eq_self {lines : List Str}
    (h : ∀ l ∈ lines, dropMatch l = false) : stage2 lines = lines := by
  rw [stage2]
  apply List.filter_eq_self.mpr
  intro l hl
  rw [h l hl]
  rfl

theorem sanitize_lines_no_nl (x : Str) :
    ∀ l ∈ stage3 (stage2 (stage1 (splitlinesL x))), '\n' ∉ l := by
  intro l hl
  apply splitlinesL_no_nl x
  have h3 : l ∈ stage2 (stage1 (splitlinesL x)) :=
    (List.drop_sublist _ _).mem hl
  have h2 : l ∈ stage1 (splitlinesL x) :=
    (List.filter_sublist _).mem h3
  exact (List.takeWhile_sublist _).mem h2

/-! ### Sanitizer matcher stability under trimming

The cut/drop matchers read a line only through `toLowerStr (skipWs l)`;
this section shows they are unchanged by left- and right-stripping the
line, which lets the idempotence hypotheses about cut/drop patterns on
sanitizer output be discharged outright. -/

theorem pyWS_false_of_ge {d : Char} (h : 33 ≤ d.toNat) : pyWS d = false := by
  rw [pyWS]
  simp only [Bool.or_eq_false_iff, decide_eq_false_iff_not]
  refine ⟨⟨⟨⟨⟨?_, ?_⟩, ?_⟩, ?_⟩, ?_⟩, ?_⟩ <;> intro he <;> subst he <;>
    exact absurd h (by decide)

theorem pyWS_toLower (c : Char) : pyWS (Char.toLower c) = pyWS c := by
  rw [Char.toLower]
  by_cases h : c.toNat ≥ 65 ∧ c.toNat ≤ 90
  · rw [if_pos h]
    have hv : (c.toNat + 32).isValidChar := Or.inl (by omega)
    have htn : (Char.ofNat (c.toNat + 32)).toNat = c.toNat + 32 := by
      rw [Char.ofNat, dif_pos hv]
      rfl
    rw [pyWS_false_of_ge (by omega), pyWS_false_of_ge (by omega : 33 ≤ c.toNat)]
  · rw [if_neg h]

theorem isWordChar_false_of_ws {c : Char} (h : pyWS c = true) :
    isWordChar c = false := by
  rw [pyWS] at h
  simp only [Bool.or_eq_true, decide_eq_true_eq] at h
  rcases h with ((((h | h) | h) | h) | h) | h <;> subst h <;> decide

theorem toLowerStr_rstripL (t : Str) :
    toLowerStr (rstripL t) = rstripL (toLowerStr t) := by
  induction t with
  | nil => rfl
  | cons c rest ih =>
    rw [show toLowerStr (c :: rest) = Char.toLower c :: toLowerStr rest
      from rfl]
    rw [rstripL_cons, rstripL_cons, ← ih, pyWS_toLower]
    have hie : (toLowerStr (rstripL rest)).isEmpty = (rstripL rest).isEmpty := by
      cases rstripL rest <;> rfl
    rw [hie]
    by_cases hb : ((rstripL rest).isEmpty && pyWS c) = true
    · rw [if_pos hb, if_pos hb]
      rfl
    · rw [if_neg hb, if_neg hb]
      rfl

theorem skipWs_cons_ws {c : Char} (hc : pyWS c = true) (s : Str) :
    skipWs (c :: s) = skipWs s := by
  simp only [skipWs]
  rw [List.dropWhile_cons, if_pos hc]

theorem skipWs_cons_nws {c : Char} (hc : pyWS c = false) (s : Str) :
    skipWs (c :: s) = c :: s := by
  simp only [skipWs]
  rw [List.dropWhile_cons, if_neg (by simp [hc])]

theorem rstripL_tail {c : Char} {rest : Str}
    (h : rstripL (c :: rest) = c :: rest) : rstripL rest = rest := by
  rw [rstripL_cons] at h
  by_cases hb : ((rstripL rest).isEmpty && pyWS c) = true
  · rw [if_pos hb] at h
    simp at h
  · rw [if_neg hb] at h
    exact (List.cons.inj h).2

theorem rstripL_decomp (s : Str) :
    ∃ w, s = rstripL s ++ w ∧ ∀ c ∈ w, pyWS c = true := by
  induction s with
  | nil => exact ⟨[], rfl, by simp⟩
  | cons c rest ih =>
    obtain ⟨w, hw, hws⟩ := ih
    rw [rstripL_cons]
    by_cases hb : ((rstripL rest).isEmpty && pyWS c) = true
    · rw [if_pos hb]
      refine ⟨c :: rest, by simp, ?_⟩
      intro d hd
      rcases List.mem_cons.mp hd with hd | hd
      · subst hd
        exact (Bool.and_eq_true .. ▸ hb).2
      · have hre : rstripL rest = [] :=
          List.isEmpty_eq_true.mp (Bool.and_eq_true .. ▸ hb).1
        rw [hw, hre, List.nil_append] at hd
        exact hws d hd
    · rw [if_neg hb]
      exact ⟨w, by rw [List.cons_append, ← hw], hws⟩

theorem rstripL_drop : ∀ (n : Nat) {t : Str}, rstripL t = t →
    rstripL (t.drop n) = t.drop n := by
  intro n
  induction n with
  | zero =>
    intro t h
    simpa using h
  | succ n ih =>
    intro t h
    cases t with
    | nil => rfl
    | cons c rest =>
      rw [List.drop_succ_cons]
      exact ih (rstripL_tail h)

/-- `s` is `t` followed by trailing whitespace, with `t` right-trimmed. -/
def TrailWS (t s : Str) : Prop :=
  (∃ w, s = t ++ w ∧ ∀ c ∈ w, pyWS c = true) ∧ rstripL t = t

theorem trailWS_of_rstripL (s : Str) : TrailWS (rstripL s) s := by
  obtain ⟨w, hw, hws⟩ := rstripL_decomp s
  exact ⟨⟨w, hw, hws⟩, rstripL_idem s⟩

theorem trailWS_skipWs : ∀ {t s : Str}, TrailWS t s →
    TrailWS (skipWs t) (skipWs s) := by
  intro t
  induction t with
  | nil =>
    rintro s ⟨⟨w, hw, hws⟩, -⟩
    subst hw
    exact ⟨⟨skipWs s, rfl,
      fun c hc => hws c ((List.dropWhile_sublist _).mem hc)⟩, rfl⟩
  | cons c rest ih =>
    rintro s ⟨⟨w, hw, hws⟩, hr⟩
    subst hw
    rw [List.cons_append]
    by_cases hc : pyWS c = true
    · rw [skipWs_cons_ws hc, skipWs_cons_ws hc]
      exact ih ⟨⟨w, rfl, hws⟩, rstripL_tail hr⟩
    · rw [skipWs_cons_nws (Bool.eq_false_iff.mpr hc),
        skipWs_cons_nws (Bool.eq_false_iff.mpr hc), ← List.cons_append]
      exact ⟨⟨w, rfl, hws⟩, hr⟩

theorem trailWS_dropOptChar {t s : Str} (h : TrailWS t s) {c : Char}
    (hc : pyWS c = false) : TrailWS (dropOptChar c t) (dropOptChar c s) := by
  obtain ⟨⟨w, hw, hws⟩, hr⟩ := h
  subst hw
  cases t with
  | nil =>
    rw [List.nil_append]
    cases w with
    | nil => exact ⟨⟨[], rfl, by simp⟩, rfl⟩
    | cons d w' =>
      rw [show dropOptChar c (d :: w') = d :: w' from by
        rw [dropOptChar]
        rw [if_neg (by
          intro h0
          subst h0
          rw [hws d (List.mem_cons_self ..)] at hc
          simp at hc)]]
      exact ⟨⟨d :: w', rfl, hws⟩, rfl⟩
  | cons b rest =>
    rw [List.cons_append, dropOptChar, dropOptChar]
    by_cases hbc : b = c
    · rw [if_pos hbc, if_pos hbc]
      exact ⟨⟨w, rfl, hws⟩, rstripL_tail hr⟩
    · rw [if_neg hbc, if_neg hbc, ← List.cons_append]
      exact ⟨⟨w, rfl, hws⟩, hr⟩

theorem trailWS_skip_isEmpty {t s : Str} (h : TrailWS t s) :
    (skipWs s).isEmpty = (skipWs t).isEmpty := by
  obtain ⟨⟨w, hw, hws⟩, hr⟩ := trailWS_skipWs h
  rw [hw]
  cases hsk : skipWs t with
  | nil =>
    rw [List.nil_append]
    cases hwc : w with
    | nil => rfl
    | cons d w' =>
      have hd : pyWS d = true := hws d (by rw [hwc]; exact List.mem_cons_self ..)
      have hd' : pyWS d = false := by
        apply head_dropWhile_not pyWS s d w'
        rw [show s.dropWhile pyWS = skipWs s from rfl, hw, hsk, hwc,
          List.nil_append]
      rw [hd] at hd'
      simp at hd'
  | cons a as => rfl

theorem trailWS_boundaryAfter {t s : Str} (h : TrailWS t s) :
    boundaryAfter s = boundaryAfter t := by
  obtain ⟨⟨w, hw, hws⟩, -⟩ := h
  subst hw
  cases t with
  | nil =>
    rw [List.nil_append]
    cases w with
    | nil => rfl
    | cons d w' =>
      rw [show boundaryAfter (d :: w') = !isWordChar d from rfl]
      rw [isWordChar_false_of_ws (hws d (List.mem_cons_self ..))]
      rfl
  | cons b rest => rfl

theorem isPrefixOf_ws_false : ∀ {lit w : Str},
    (∃ d, lit.getLast? = some d ∧ pyWS d = false) →
    (∀ c ∈ w, pyWS c = true) → lit.isPrefixOf w = false := by
  intro lit
  induction lit with
  | nil =>
    rintro w ⟨d, hd, -⟩ _
    simp at hd
  | cons a lit' ih =>
    rintro w ⟨d, hd, hdws⟩ hw
    cases w with
    | nil => rfl
    | cons c w' =>
      rw [show (a :: lit').isPrefixOf (c :: w')
          = (a == c && lit'.isPrefixOf w') from rfl]
      cases lit' with
      | nil =>
        have had : a = d := by simpa using hd
        subst had
        have hne : (a == c) = false := by
          rw [beq_eq_false_iff_ne]
          intro h0
          subst h0
          rw [hw a (List.mem_cons_self ..)] at hdws
          simp at hdws
        rw [hne]
        rfl
      | cons e lit'' =>
        rw [List.getLast?_cons_cons] at hd
        rw [ih ⟨d, hd, hdws⟩ (fun c' hc' => hw c' (List.mem_cons_of_mem _ hc'))]
        rw [Bool.and_false]

theorem isPrefixOf_append_ws : ∀ {lit t w : Str},
    (∃ d, lit.getLast? = some d ∧ pyWS d = false) →
    rstripL t = t → (∀ c ∈ w, pyWS c = true) →
    lit.isPrefixOf (t ++ w) = lit.isPrefixOf t := by
  intro lit
  induction lit with
  | nil =>
    rintro t w ⟨d, hd, -⟩ _ _
    simp at hd
  | cons a lit' ih =>
    rintro t w ⟨d, hd, hdws⟩ ht hw
    cases t with
    | nil =>
      rw [List.nil_append]
      rw [isPrefixOf_ws_false ⟨d, hd, hdws⟩ hw]
      rfl
    | cons b t' =>
      rw [List.cons_append]
      rw [show (a :: lit').isPrefixOf (b :: (t' ++ w))
          = (a == b && lit'.isPrefixOf (t' ++ w)) from rfl]
      rw [show (a :: lit').isPrefixOf (b :: t')
          = (a == b && lit'.isPrefixOf t') from rfl]
      cases lit' with
      | nil =>
        have he : ∀ l : Str, ([] : Str).isPrefixOf l = true := by
          intro l
          cases l <;> rfl
        rw [he, he]
      | cons e lit'' =>
        rw [List.getLast?_cons_cons] at hd
        rw [ih ⟨d, hd, hdws⟩ (rstripL_tail ht) hw]

theorem isPrefixOf_append_mono {lit t : Str} (w : Str)
    (h : lit.isPrefixOf t = true) : lit.isPrefixOf (t ++ w) = true := by
  rw [List.isPrefixOf_iff_prefix] at h ⊢
  exact h.trans (List.prefix_append t w)

theorem dropLit_trailws {lit t s : Str}
    (hlast : ∃ d, lit.getLast? = some d ∧ pyWS d = false)
    (h : TrailWS t s) :
    (dropLit lit t = none ∧ dropLit lit s = none) ∨
      ∃ r r', dropLit lit t = some r ∧ dropLit lit s = some r' ∧
        TrailWS r r' := by
  obtain ⟨⟨w, hw, hws⟩, ht⟩ := h
  subst hw
  have hpe : lit.isPrefixOf (t ++ w) = lit.isPrefixOf t :=
    isPrefixOf_append_ws hlast ht hws
  by_cases hp : lit.isPrefixOf t = true
  · right
    have hlen : lit.length ≤ t.length :=
      (List.isPrefixOf_iff_prefix.mp hp).length_le
    refine ⟨t.drop lit.length, (t ++ w).drop lit.length, ?_, ?_, ?_⟩
    · rw [dropLit, if_pos hp]
    · rw [dropLit, if_pos (show lit.isPrefixOf (t ++ w) = true from by
        rw [hpe]; exact hp)]
    · refine ⟨⟨w, ?_, hws⟩, rstripL_drop _ ht⟩
      rw [List.drop_append_eq_append_drop, Nat.sub_eq_zero_of_le hlen,
        List.drop_zero]
  · left
    constructor
    · rw [dropLit, if_neg hp]
    · rw [dropLit, if_neg (show ¬ lit.isPrefixOf (t ++ w) = true from by
        rw [hpe]; exact hp)]

theorem matchLitThen_trailws {lit : Str} {tail : Str → Bool}
    (hlast : ∃ d, lit.getLast? = some d ∧ pyWS d = false)
    (htail : ∀ t s : Str, TrailWS t s → tail s = tail t)
    {t s : Str} (h : TrailWS t s) :
    matchLitThen lit tail s = matchLitThen lit tail t := by
  rcases dropLit_trailws hlast h with ⟨hn1, hn2⟩ | ⟨r, r', h1, h2, hrr⟩
  · rw [matchLitThen, matchLitThen, hn1, hn2]
  · rw [matchLitThen, matchLitThen, h1, h2]
    exact htail r r' hrr

theorem cutTailPlain_trailws {t s : Str} (h : TrailWS t s) :
    cutTailPlain s = cutTailPlain t := by
  rw [cutTailPlain, cutTailPlain]
  exact trailWS_skip_isEmpty
    (trailWS_dropOptChar (trailWS_skipWs h) (by decide))

theorem cutTailStar_trailws {t s : Str} (h : TrailWS t s) :
    cutTailStar s = cutTailStar t := by
  rw [cutTailStar, cutTailStar]
  exact trailWS_skip_isEmpty
    (trailWS_dropOptChar
      (trailWS_dropOptChar
        (trailWS_skipWs
          (trailWS_dropOptChar (trailWS_skipWs h) (by decide)))
        (by decide))
      (by decide))

theorem containsBoundedAfter_trailws {lit t s : Str}
    (hlast : ∃ d, lit.getLast? = some d ∧ pyWS d = false)
    (h : TrailWS t s) :
    containsBoundedAfter lit s = containsBoundedAfter lit t := by
  obtain ⟨⟨w, hw, hws⟩, ht⟩ := h
  subst hw
  have hne : lit ≠ [] := by
    rintro rfl
    obtain ⟨d, hd, -⟩ := hlast
    simp at hd
  rw [Bool.eq_iff_iff]
  rw [containsBoundedAfter, containsBoundedAfter, List.any_eq_true,
    List.any_eq_true]
  constructor
  · rintro ⟨i, hi, hcond⟩
    rw [Bool.and_eq_true] at hcond
    obtain ⟨hpre, hbnd⟩ := hcond
    have hile : i ≤ t.length := by
      by_contra hgt
      push_neg at hgt
      have hdrop : (t ++ w).drop i = w.drop (i - t.length) := by
        rw [List.drop_append_eq_append_drop,
          List.drop_eq_nil_of_le (le_of_lt hgt), List.nil_append]
      have hf : lit.isPrefixOf (w.drop (i - t.length)) = false :=
        isPrefixOf_ws_false hlast
          (fun c hc => hws c ((List.drop_sublist _ _).mem hc))
      rw [hdrop, hf] at hpre
      exact absurd hpre (by simp)
    have hdropi : (t ++ w).drop i = t.drop i ++ w := by
      rw [List.drop_append_eq_append_drop, Nat.sub_eq_zero_of_le hile,
        List.drop_zero]
    rw [hdropi, isPrefixOf_append_ws hlast (rstripL_drop _ ht) hws] at hpre
    have hlen : i + lit.length ≤ t.length := by
      have hll := (List.isPrefixOf_iff_prefix.mp hpre).length_le
      rw [List.length_drop] at hll
      omega
    have hdropiL : (t ++ w).drop (i + lit.length)
        = t.drop (i + lit.length) ++ w := by
      rw [List.drop_append_eq_append_drop, Nat.sub_eq_zero_of_le hlen,
        List.drop_zero]
    rw [hdropiL,
      trailWS_boundaryAfter ⟨⟨w, rfl, hws⟩, rstripL_drop _ ht⟩] at hbnd
    refine ⟨i, List.mem_range.mpr (by omega), ?_⟩
    rw [Bool.and_eq_true]
    exact ⟨hpre, hbnd⟩
  · rintro ⟨i, hi, hcond⟩
    rw [Bool.and_eq_true] at hcond
    obtain ⟨hpre, hbnd⟩ := hcond
    have hile : i ≤ t.length := by
      by_contra hgt
      push_neg at hgt
      rw [List.drop_eq_nil_of_le (le_of_lt hgt)] at hpre
      cases lit with
      | nil => exact hne rfl
      | cons a as => simp [List.isPrefixOf] at hpre
    have hlen : i + lit.length ≤ t.length := by
      have hll := (List.isPrefixOf_iff_prefix.mp hpre).length_le
      rw [List.length_drop] at hll
      omega
    refine ⟨i, List.mem_range.mpr (by rw [List.length_append]; omega), ?_⟩
    rw [Bool.and_eq_true]
    constructor
    · rw [show (t ++ w).drop i = t.drop i ++ w from by
        rw [List.drop_append_eq_append_drop, Nat.sub_eq_zero_of_le hile,
          List.drop_zero]]
      exact isPrefixOf_append_mono w hpre
    · rw [show (t ++ w).drop (i + lit.length)
          = t.drop (i + lit.length) ++ w from by
        rw [List.drop_append_eq_append_drop, Nat.sub_eq_zero_of_le hlen,
          List.drop_zero]]
      rw [trailWS_boundaryAfter ⟨⟨w, rfl, hws⟩, rstripL_drop _ ht⟩]
      exact hbnd

theorem containsBoundedBoth_trailws {lit t s : Str}
    (hlast : ∃ d, lit.getLast? = some d ∧ pyWS d = false)
    (h : TrailWS t s) :
    containsBoundedBoth lit s = containsBoundedBoth lit t := by
  obtain ⟨⟨w, hw, hws⟩, ht⟩ := h
  subst hw
  have hne : lit ≠ [] := by
    rintro rfl
    obtain ⟨d, hd, -⟩ := hlast
    simp at hd
  have hlpos : 1 ≤ lit.length := by
    cases lit with
    | nil => exact absurd rfl hne
    | cons a as => simp
  rw [Bool.eq_iff_iff]
  rw [containsBoundedBoth, containsBoundedBoth, List.any_eq_true,
    List.any_eq_true]
  constructor
  · rintro ⟨i, hi, hcond⟩
    rw [Bool.and_eq_true, Bool.and_eq_true] at hcond
    obtain ⟨⟨hpre, hmid⟩, hbnd⟩ := hcond
    have hile : i ≤ t.length := by
      by_contra hgt
      push_neg at hgt
      have hdrop : (t ++ w).drop i = w.drop (i - t.length) := by
        rw [List.drop_append_eq_append_drop,
          List.drop_eq_nil_of_le (le_of_lt hgt), List.nil_append]
      have hf : lit.isPrefixOf (w.drop (i - t.length)) = false :=
        isPrefixOf_ws_false hlast
          (fun c hc => hws c ((List.drop_sublist _ _).mem hc))
      rw [hdrop, hf] at hpre
      exact absurd hpre (by simp)
    have hdropi : (t ++ w).drop i = t.drop i ++ w := by
      rw [List.drop_append_eq_append_drop, Nat.sub_eq_zero_of_le hile,
        List.drop_zero]
    rw [hdropi, isPrefixOf_append_ws hlast (rstripL_drop _ ht) hws] at hpre
    have hlen : i + lit.length ≤ t.length := by
      have hll := (List.isPrefixOf_iff_prefix.mp hpre).length_le
      rw [List.length_drop] at hll
      omega
    have hdropiL : (t ++ w).drop (i + lit.length)
        = t.drop (i + lit.length) ++ w := by
      rw [List.drop_append_eq_append_drop, Nat.sub_eq_zero_of_le hlen,
        List.drop_zero]
    rw [hdropiL,
      trailWS_boundaryAfter ⟨⟨w, rfl, hws⟩, rstripL_drop _ ht⟩] at hbnd
    refine ⟨i, List.mem_range.mpr (by omega), ?_⟩
    rw [Bool.and_eq_true, Bool.and_eq_true]
    refine ⟨⟨hpre, ?_⟩, hbnd⟩
    cases i with
    | zero => exact hmid
    | succ j =>
      have hjlt : j < t.length := by omega
      rw [show (t ++ w)[j + 1 - 1]? = t[j + 1 - 1]? from by
        rw [List.getElem?_append]
        rw [if_pos (by simpa using hjlt)]] at hmid
      exact hmid
  · rintro ⟨i, hi, hcond⟩
    rw [Bool.and_eq_true, Bool.and_eq_true] at hcond
    obtain ⟨⟨hpre, hmid⟩, hbnd⟩ := hcond
    have hile : i ≤ t.length := by
      by_contra hgt
      push_neg at hgt
      rw [List.drop_eq_nil_of_le (le_of_lt hgt)] at hpre
      cases lit with
      | nil => exact hne rfl
      | cons a as => simp [List.isPrefixOf] at hpre
    have hlen : i + lit.length ≤ t.length := by
      have hll := (List.isPrefixOf_iff_prefix.mp hpre).length_le
      rw [List.length_drop] at hll
      omega
    refine ⟨i, List.mem_range.mpr (by rw [List.length_append]; omega), ?_⟩
    rw [Bool.and_eq_true, Bool.and_eq_true]
    refine ⟨⟨?_, ?_⟩, ?_⟩
    · rw [show (t ++ w).drop i = t.drop i ++ w from by
        rw [List.drop_append_eq_append_drop, Nat.sub_eq_zero_of_le hile,
          List.drop_zero]]
      exact isPrefixOf_append_mono w hpre
    · cases i with
      | zero => exact hmid
      | succ j =>
        have hjlt : j < t.length := by omega
        rw [show (t ++ w)[j + 1 - 1]? = t[j + 1 - 1]? from by
          rw [List.getElem?_append]
          rw [if_pos (by simpa using hjlt)]]
        exact hmid
    · rw [show (t ++ w).drop (i + lit.length)
          = t.drop (i + lit.length) ++ w from by
        rw [List.drop_append_eq_append_drop, Nat.sub_eq_zero_of_le hlen,
          List.drop_zero]]
      rw [trailWS_boundaryAfter ⟨⟨w, rfl, hws⟩, rstripL_drop _ ht⟩]
      exact hbnd

theorem resumeOrCoverLetter_trailws {t s : Str} (h : TrailWS t s) :
    resumeOrCoverLetter s = resumeOrCoverLetter t := by
  rw [resumeOrCoverLetter, resumeOrCoverLetter,
    @containsBoundedAfter_trailws "resume".data t s
      ⟨'e', by decide, by decide⟩ h,
    @containsBoundedAfter_trailws "cover letter".data t s
      ⟨'r', by decide, by decide⟩ h]

theorem hereIsRest_trailws {t s : Str} (h : TrailWS t s) :
    hereIsRest s = hereIsRest t := by
  rw [hereIsRest, hereIsRest]
  rcases @dropLit_trailws "an".data t s ⟨'n', by decide, by decide⟩ h with
    ⟨hn1, hn2⟩ | ⟨r, r', h1, h2, hrr⟩
  · rw [hn1, hn2]
    dsimp only
    rcases @dropLit_trailws "a".data t s ⟨'a', by decide, by decide⟩ h with
      ⟨hm1, hm2⟩ | ⟨r, r', h1, h2, hrr⟩
    · rw [hm1, hm2]
      dsimp only
      rcases @dropLit_trailws "the".data t s ⟨'e', by decide, by decide⟩ h
        with ⟨hp1, hp2⟩ | ⟨r, r', h1, h2, hrr⟩
      · rw [hp1, hp2]
      · rw [h1, h2]
        dsimp only
        rw [trailWS_boundaryAfter hrr]
        by_cases hb : boundaryAfter r = true
        · rw [if_pos hb, if_pos hb]
          exact resumeOrCoverLetter_trailws hrr
        · rw [if_neg hb, if_neg hb]
    · rw [h1, h2]
      dsimp only
      rw [trailWS_boundaryAfter hrr]
      by_cases hb : boundaryAfter r = true
      · rw [if_pos hb, if_pos hb]
        exact resumeOrCoverLetter_trailws hrr
      · rw [if_neg hb, if_neg hb]
  · rw [h1, h2]
    dsimp only
    rw [trailWS_boundaryAfter hrr]
    by_cases hb : boundaryAfter r = true
    · rw [if_pos hb, if_pos hb]
      exact resumeOrCoverLetter_trailws hrr
    · rw [if_neg hb, if_neg hb]

theorem containsOffice_trailws {t s : Str} (h : TrailWS t s) :
    containsOffice s = containsOffice t := by
  rw [containsOffice, containsOffice,
    @containsBoundedBoth_trailws "office of".data t s
      ⟨'f', by decide, by decide⟩ h,
    @containsBoundedBoth_trailws "assemblymember".data t s
      ⟨'r', by decide, by decide⟩ h,
    @containsBoundedBoth_trailws "senator".data t s
      ⟨'r', by decide, by decide⟩ h]

/-- The starred alternative of the cut patterns (`\*\*?` wrapping). -/
def cutStar (s : Str) : Bool :=
  match s with
  | '*' :: s1 =>
    let s3 := skipWs (dropOptChar '*' s1)
    matchLitThen "changes made".data cutTailStar s3
      || matchLitThen "workspace suggestions".data cutTailStar s3
  | _ => false

/-- The body of `cutMatch`, as a function of the lowered, left-stripped
line. -/
def cutMatchS (s : Str) : Bool :=
  (matchLitThen "changes made".data cutTailPlain s
    || matchLitThen "workspace suggestions".data cutTailPlain s)
  || cutStar s

theorem cutMatch_eq_cutMatchS (l : Str) :
    cutMatch l = cutMatchS (toLowerStr (skipWs l)) := rfl

/-- The `Here is (a|an|the) ... (resume|cover letter)` alternative of the
drop patterns. -/
def hereIsBranch (s : Str) : Bool :=
  match dropLit "here is ".data s with
  | some r => hereIsRest r
  | none => false

/-- The `optimized it for ...` alternative of the drop patterns. -/
def optForBranch (s : Str) : Bool :=
  match dropLit "optimized it for".data s with
  | some r => boundaryAfter r && containsOffice r
  | none => false

/-- The `optimized resume ... for` alternative of the drop patterns. -/
def optResumeBranch (s : Str) : Bool :=
  match dropLit "optimized resume".data s with
  | some r => boundaryAfter r && containsOffice r
  | none => false

/-- The body of `dropMatch`, as a function of the lowered, left-stripped
line. -/
def dropMatchS (s : Str) : Bool :=
  matchLitThen "based on the provided resume".data boundaryAfter s
  || hereIsBranch s
  || matchLitThen litIve boundaryAfter s
  || matchLitThen litHeres boundaryAfter s
  || matchLitThen "this directory contains".data boundaryAfter s
  || matchLitThen "this file contains".data boundaryAfter s
  || matchLitThen "i am excited to apply for".data boundaryAfter s
  || matchLitThen "i am applying for".data boundaryAfter s
  || optForBranch s
  || optResumeBranch s

theorem dropMatch_eq_dropMatchS (l : Str) :
    dropMatch l = dropMatchS (toLowerStr (skipWs l)) := rfl

theorem cutStar_nil : cutStar [] = false := rfl

theorem cutStar_cons_star (s1 : Str) :
    cutStar ('*' :: s1)
      = (matchLitThen "changes made".data cutTailStar
          (skipWs (dropOptChar '*' s1))
        || matchLitThen "workspace suggestions".data cutTailStar
          (skipWs (dropOptChar '*' s1))) := rfl

theorem cutStar_cons_ne {b : Char} (hb : b ≠ '*') (s1 : Str) :
    cutStar (b :: s1) = false := by
  rw [cutStar.eq_def]
  split
  · rename_i s2 heq
    exact absurd (List.cons.inj heq).1 hb
  · rfl

theorem cutStar_trailws {t s : Str} (h : TrailWS t s) :
    cutStar s = cutStar t := by
  obtain ⟨⟨w, hw, hws⟩, ht⟩ := h
  subst hw
  cases t with
  | nil =>
    rw [cutStar_nil]
    cases w with
    | nil => rfl
    | cons c w' =>
      have hc : pyWS c = true := hws c (List.mem_cons_self ..)
      apply cutStar_cons_ne
      intro h0
      subst h0
      exact absurd hc (by decide)
  | cons b t1 =>
    rw [List.cons_append]
    by_cases hb : b = '*'
    · subst hb
      have hrr : TrailWS (skipWs (dropOptChar '*' t1))
          (skipWs (dropOptChar '*' (t1 ++ w))) :=
        trailWS_skipWs
          (trailWS_dropOptChar ⟨⟨w, rfl, hws⟩, rstripL_tail ht⟩ (by decide))
      rw [cutStar_cons_star, cutStar_cons_star]
      rw [@matchLitThen_trailws "changes made".data cutTailStar
        ⟨'e', by decide, by decide⟩
        (fun a b hab => cutTailStar_trailws hab) _ _ hrr]
      rw [@matchLitThen_trailws "workspace suggestions".data cutTailStar
        ⟨'s', by decide, by decide⟩
        (fun a b hab => cutTailStar_trailws hab) _ _ hrr]
    · rw [cutStar_cons_ne hb, cutStar_cons_ne hb]

theorem cutMatchS_trailws {t s : Str} (h : TrailWS t s) :
    cutMatchS s = cutMatchS t := by
  rw [cutMatchS, cutMatchS]
  rw [@matchLitThen_trailws "changes made".data cutTailPlain
    ⟨'e', by decide, by decide⟩
    (fun a b hab => cutTailPlain_trailws hab) t s h]
  rw [@matchLitThen_trailws "workspace suggestions".data cutTailPlain
    ⟨'s', by decide, by decide⟩
    (fun a b hab => cutTailPlain_trailws hab) t s h]
  rw [cutStar_trailws h]

theorem isPrefixOf_of_append_le {lit t w : Str}
    (h : lit.isPrefixOf (t ++ w) = true) (hle : lit.length ≤ t.length) :
    lit.isPrefixOf t = true := by
  rw [List.isPrefixOf_iff_prefix] at h ⊢
  have heq : lit = (t ++ w).take lit.length := List.prefix_iff_eq_take.mp h
  rw [List.take_append_eq_append_take, Nat.sub_eq_zero_of_le hle,
    List.take_zero, List.append_nil] at heq
  rw [heq]
  exact List.take_prefix _ _

theorem hereIsRest_ws_false {r : Str} (hw : ∀ c ∈ r, pyWS c = true) :
    hereIsRest r = false := by
  rw [hereIsRest]
  rw [show dropLit "an".data r = none from by
    rw [dropLit, if_neg (show ¬ "an".data.isPrefixOf r = true from by
      rw [isPrefixOf_ws_false ⟨'n', by decide, by decide⟩ hw]
      simp)]]
  dsimp only
  rw [show dropLit "a".data r = none from by
    rw [dropLit, if_neg (show ¬ "a".data.isPrefixOf r = true from by
      rw [isPrefixOf_ws_false ⟨'a', by decide, by decide⟩ hw]
      simp)]]
  dsimp only
  rw [show dropLit "the".data r = none from by
    rw [dropLit, if_neg (show ¬ "the".data.isPrefixOf r = true from by
      rw [isPrefixOf_ws_false ⟨'e', by decide, by decide⟩ hw]
      simp)]]

theorem hereIsBranch_trailws {t s : Str} (h : TrailWS t s) :
    hereIsBranch s = hereIsBranch t := by
  obtain ⟨⟨w, hw, hws⟩, ht⟩ := h
  subst hw
  rw [hereIsBranch, hereIsBranch]
  by_cases hp : "here is ".data.isPrefixOf t = true
  · have hps : "here is ".data.isPrefixOf (t ++ w) = true :=
      isPrefixOf_append_mono w hp
    have hlen : "here is ".data.length ≤ t.length :=
      (List.isPrefixOf_iff_prefix.mp hp).length_le
    rw [show dropLit "here is ".data (t ++ w)
        = some (t.drop "here is ".data.length ++ w) from by
      rw [dropLit, if_pos hps, List.drop_append_eq_append_drop,
        Nat.sub_eq_zero_of_le hlen, List.drop_zero]]
    rw [show dropLit "here is ".data t
        = some (t.drop "here is ".data.length) from by
      rw [dropLit, if_pos hp]]
    dsimp only
    exact hereIsRest_trailws ⟨⟨w, rfl, hws⟩, rstripL_drop _ ht⟩
  · rw [show dropLit "here is ".data t = none from by
      rw [dropLit, if_neg hp]]
    by_cases hps : "here is ".data.isPrefixOf (t ++ w) = true
    · have hlt : t.length < "here is ".data.length := by
        by_contra hge
        push_neg at hge
        exact hp (isPrefixOf_of_append_le hps hge)
      rw [show dropLit "here is ".data (t ++ w)
          = some ((t ++ w).drop "here is ".data.length) from by
        rw [dropLit, if_pos hps]]
      dsimp only
      rw [show (t ++ w).drop "here is ".data.length
          = w.drop ("here is ".data.length - t.length) from by
        rw [List.drop_append_eq_append_drop,
          List.drop_eq_nil_of_le (le_of_lt hlt), List.nil_append]]
      rw [hereIsRest_ws_false
        (fun c hc => hws c ((List.drop_sublist _ _).mem hc))]
    · rw [show dropLit "here is ".data (t ++ w) = none from by
        rw [dropLit, if_neg hps]]

theorem optForBranch_trailws {t s : Str} (h : TrailWS t s) :
    optForBranch s = optForBranch t := by
  rw [optForBranch, optForBranch]
  rcases @dropLit_trailws "optimized it for".data t s
      ⟨'r', by decide, by decide⟩ h with ⟨hn1, hn2⟩ | ⟨r, r', h1, h2, hrr⟩
  · rw [hn1, hn2]
  · rw [h1, h2]
    dsimp only
    rw [trailWS_boundaryAfter hrr, containsOffice_trailws hrr]

theorem optResumeBranch_trailws {t s : Str} (h : TrailWS t s) :
    optResumeBranch s = optResumeBranch t := by
  rw [optResumeBranch, optResumeBranch]
  rcases @dropLit_trailws "optimized resume".data t s
      ⟨'e', by decide, by decide⟩ h with ⟨hn1, hn2⟩ | ⟨r, r', h1, h2, hrr⟩
  · rw [hn1, hn2]
  · rw [h1, h2]
    dsimp only
    rw [trailWS_boundaryAfter hrr, containsOffice_trailws hrr]

theorem dropMatchS_trailws {t s : Str} (h : TrailWS t s) :
    dropMatchS s = dropMatchS t := by
  rw [dropMatchS, dropMatchS]
  rw [@matchLitThen_trailws "based on the provided resume".data boundaryAfter
    ⟨'e', by decide, by decide⟩
    (fun a b hab => trailWS_boundaryAfter hab) t s h]
  rw [hereIsBranch_trailws h]
  rw [@matchLitThen_trailws litIve boundaryAfter
    ⟨'s', by decide, by decide⟩
    (fun a b hab => trailWS_boundaryAfter hab) t s h]
  rw [@matchLitThen_trailws litHeres boundaryAfter
    ⟨'e', by decide, by decide⟩
    (fun a b hab => trailWS_boundaryAfter hab) t s h]
  rw [@matchLitThen_trailws "this directory contains".data boundaryAfter
    ⟨'s', by decide, by decide⟩
    (fun a b hab => trailWS_boundaryAfter hab) t s h]
  rw [@matchLitThen_trailws "this file contains".data boundaryAfter
    ⟨'s', by decide, by decide⟩
    (fun a b hab => trailWS_boundaryAfter hab) t s h]
  rw [@matchLitThen_trailws "i am excited to apply for".data boundaryAfter
    ⟨'r', by decide, by decide⟩
    (fun a b hab => trailWS_boundaryAfter hab) t s h]
  rw [@matchLitThen_trailws "i am applying for".data boundaryAfter
    ⟨'r', by decide, by decide⟩
    (fun a b hab => trailWS_boundaryAfter hab) t s h]
  rw [optForBranch_trailws h, optResumeBranch_trailws h]

theorem cutMatch_rstripL (l : Str) : cutMatch (rstripL l) = cutMatch l := by
  rw [cutMatch_eq_cutMatchS, cutMatch_eq_cutMatchS]
  rw [show toLowerStr (skipWs (rstripL l))
      = rstripL (toLowerStr (skipWs l)) from by
    show toLowerStr (lstripL (rstripL l)) = rstripL (toLowerStr (lstripL l))
    rw [← lstripL_rstripL_comm, toLowerStr_rstripL]]
  exact (cutMatchS_trailws (trailWS_of_rstripL _)).symm

theorem cutMatch_lstripL (l : Str) : cutMatch (lstripL l) = cutMatch l := by
  rw [cutMatch_eq_cutMatchS, cutMatch_eq_cutMatchS]
  rw [show skipWs (lstripL l) = skipWs l from lstripL_idem l]

theorem dropMatch_rstripL (l : Str) :
    dropMatch (rstripL l) = dropMatch l := by
  rw [dropMatch_eq_dropMatchS, dropMatch_eq_dropMatchS]
  rw [show toLowerStr (skipWs (rstripL l))
      = rstripL (toLowerStr (skipWs l)) from by
    show toLowerStr (lstripL (rstripL l)) = rstripL (toLowerStr (lstripL l))
    rw [← lstripL_rstripL_comm, toLowerStr_rstripL]]
  exact (dropMatchS_trailws (trailWS_of_rstripL _)).symm

theorem dropMatch_lstripL (l : Str) :
    dropMatch (lstripL l) = dropMatch l := by
  rw [dropMatch_eq_dropMatchS, dropMatch_eq_dropMatchS]
  rw [show skipWs (lstripL l) = skipWs l from lstripL_idem l]

theorem stage4Aux_provenance : ∀ (w : List Str) (run : Nat) (l : Str),
    l ∈ stage4Aux run w → l = [] ∨ ∃ l₀ ∈ w, l = rstripL l₀ := by
  intro w
  induction w with
  | nil =>
    intro run l hl
    simp [stage4Aux] at hl
  | cons a rest ih =>
    intro run l hl
    rw [stage4Aux] at hl
    by_cases ha : (stripL a).isEmpty = true
    · rw [if_pos ha] at hl
      by_cases hrun : run + 1 ≤ 2
      · rw [if_pos hrun] at hl
        rcases List.mem_cons.mp hl with h0 | h0
        · exact Or.inl h0
        · rcases ih (run + 1) l h0 with h1 | ⟨l₀, hm, he⟩
          · exact Or.inl h1
          · exact Or.inr ⟨l₀, List.mem_cons_of_mem _ hm, he⟩
      · rw [if_neg hrun] at hl
        rcases ih (run + 1) l hl with h1 | ⟨l₀, hm, he⟩
        · exact Or.inl h1
        · exact Or.inr ⟨l₀, List.mem_cons_of_mem _ hm, he⟩
    · rw [if_neg ha] at hl
      rcases List.mem_cons.mp hl with h0 | h0
      · exact Or.inr ⟨a, List.mem_cons_self .., h0⟩
      · rcases ih 0 l h0 with h1 | ⟨l₀, hm, he⟩
        · exact Or.inl h1
        · exact Or.inr ⟨l₀, List.mem_cons_of_mem _ hm, he⟩

/-- Every line surviving to the sanitizer's stage-4 output either is blank
or is the right-strip of a line that passed the cut and drop filters; in
both cases the matchers reject it. -/
theorem stage_out_matches_false {L : List Str} {l : Str}
    (hl : l ∈ stage4 (stage3 (stage2 (stage1 L)))) :
    cutMatch l = false ∧ dropMatch l = false := by
  rcases stage4Aux_provenance _ 0 l hl with h0 | ⟨l₀, hmem, heq⟩
  · subst h0
    exact ⟨by decide, by decide⟩
  · subst heq
    have h2m : l₀ ∈ stage2 (stage1 L) := (List.drop_sublist _ _).mem hmem
    have h1m : l₀ ∈ stage1 L := (List.filter_sublist _).mem h2m
    have hcut : cutMatch l₀ = false := by
      have hh := List.mem_takeWhile_imp h1m
      simpa using hh
    have hdrop : dropMatch l₀ = false := by
      have hh := (List.mem_filter.mp h2m).2
      simpa using hh
    rw [cutMatch_rstripL, dropMatch_rstripL]
    exact ⟨hcut, hdrop⟩

/-- C7, amended: `sanitize_resume_text` is idempotent on every input whose
sanitized output `y` is *scan-stable*: the stage-3 preamble scan of `y`
selects start index 0.  (No line of `y` can match a cut or drop pattern:
output lines are trimmed survivors of those filters and the matchers ignore
surrounding whitespace, so stages 1 and 2 of a second pass never fire.)
The hypothesis fails — and idempotence with it — exactly when collapsing
blank lines or stripping leading whitespace moves a section-start line into
the 60-line scan window (see the counterexample). -/
theorem sanitize_idempotent_when_scan_stable (x : Str)
    (h3 : stage3Start (splitlinesL (sanitize_resume_text x)) = 0) :
    sanitize_resume_text (sanitize_resume_text x)
      = sanitize_resume_text x := by
  by_cases hx : x.isEmpty = true
  · rw [show sanitize_resume_text x = [] from by
      rw [sanitize_resume_text, if_pos hx]]
    rfl
  · have hyeq : sanitize_resume_text x
        = stripL (joinL ['\n']
            (stage4 (stage3 (stage2 (stage1 (splitlinesL x)))))) := by
      rw [sanitize_resume_text, if_neg hx]
    have hgood : ∀ l ∈ stage4 (stage3 (stage2 (stage1 (splitlinesL x)))),
        goodLine l := stage4Aux_good _ 0 (sanitize_lines_no_nl x)
    have hokb : okBlank 0 (stage4 (stage3 (stage2 (stage1 (splitlinesL x))))) :=
      stage4Aux_okBlank _ 0
    cases htb : trimBlanks (stage4 (stage3 (stage2 (stage1 (splitlinesL x)))))
      with
    | nil =>
      have hy0 : sanitize_resume_text x = [] := by
        rw [hyeq]
        exact strip_join_all_blank (trimBlanks_nil_all_blank htb)
      rw [hy0]
      rfl
    | cons l₁ rest =>
      have hyz : sanitize_resume_text x = joinL ['\n'] (lstripL l₁ :: rest) :=
        hyeq.trans (strip_join_trim hgood htb)
      have hmem_trim : ∀ l ∈ l₁ :: rest,
          l ∈ stage4 (stage3 (stage2 (stage1 (splitlinesL x)))) := by
        intro l hl
        rw [← htb, trimBlanks] at hl
        exact mem_dropLeadingBlanks (mem_dropTrailingBlanks hl)
      have hl₁ne : l₁ ≠ [] := trimBlanks_head_ne_nil htb
      rcases hgood l₁ (hmem_trim l₁ (List.mem_cons_self ..)) with h0 | hl₁g
      · exact absurd h0 hl₁ne
      obtain ⟨hl₁r, hl₁s, hl₁n⟩ := hl₁g
      have hlstrip : lstripL l₁ = stripL l₁ := by
        rw [stripL, hl₁r]
      have hgood_trim : ∀ l ∈ l₁ :: rest, goodLine l :=
        fun l hl => hgood l (hmem_trim l hl)
      have hzh_strip : stripL (lstripL l₁) ≠ [] := by
        rw [hlstrip, stripL_idem]
        exact hl₁s
      have hzh_ne : lstripL l₁ ≠ [] := by
        rw [hlstrip]
        exact hl₁s
      have hzh_r : rstripL (lstripL l₁) = lstripL l₁ := by
        rw [hlstrip]
        exact rstripL_stripL l₁
      have hzh_nl : '\n' ∉ lstripL l₁ := fun hm => hl₁n (mem_lstripL hm)
      have hz_good : ∀ l ∈ lstripL l₁ :: rest, goodLine l := by
        intro l hl
        rcases List.mem_cons.mp hl with hl | hl
        · subst hl
          exact Or.inr ⟨hzh_r, hzh_strip, hzh_nl⟩
        · exact hgood_trim l (List.mem_cons_of_mem _ hl)
      obtain ⟨zl, hzl⟩ : ∃ zl, (lstripL l₁ :: rest).getLast? = some zl :=
        ⟨_, List.getLast?_eq_getLast_of_ne_nil (by simp)⟩
      have hzl_mem : zl ∈ lstripL l₁ :: rest := by
        rcases List.mem_getLast?_eq_getLast (show zl ∈ _ from by
          rw [hzl]; rfl) with ⟨hw, hzeq⟩
        rw [hzeq]
        exact List.getLast_mem hw
      have hzl_ne : zl ≠ [] := by
        cases rest with
        | nil =>
          simp only [List.getLast?_singleton, Option.some.injEq] at hzl
          rw [← hzl]
          exact hzh_ne
        | cons r2 rest2 =>
          apply trimBlanks_last_ne_nil (A :=
            stage4 (stage3 (stage2 (stage1 (splitlinesL x)))))
          rw [htb]
          rw [show l₁ :: r2 :: rest2 = [l₁] ++ r2 :: rest2 from rfl,
            List.getLast?_append_cons]
          rw [show lstripL l₁ :: r2 :: rest2
              = [lstripL l₁] ++ r2 :: rest2 from rfl,
            List.getLast?_append_cons] at hzl
          exact hzl
      have hzl_good : goodLine zl := hz_good _ hzl_mem
      have hzl_r : rstripL zl = zl := by
        rcases hzl_good with h0 | ⟨hr, _, _⟩
        · exact absurd h0 hzl_ne
        · exact hr
      have hz_nl : ∀ l ∈ lstripL l₁ :: rest, '\n' ∉ l := by
        intro l hl
        rcases hz_good l hl with h0 | ⟨_, _, hn⟩
        · subst h0
          simp
        · exact hn
      have hsplit_y : splitlinesL (sanitize_resume_text x)
          = lstripL l₁ :: rest := by
        rw [hyz]
        exact splitlinesL_joinL _ hz_nl _ hzl hzl_ne
      have hokb_trim : okBlank 0 (l₁ :: rest) := by
        have := okBlank_trimBlanks hokb
        rwa [htb] at this
      have hokb_z : okBlank 0 (lstripL l₁ :: rest) := by
        rw [okBlank, if_neg hzh_ne]
        rw [okBlank, if_neg hl₁ne] at hokb_trim
        exact hokb_trim
      have hyne : sanitize_resume_text x ≠ [] := by
        rw [hyz]
        exact joinL_ne_nil_of_head hzh_ne rest
      rw [show sanitize_resume_text (sanitize_resume_text x)
          = stripL (joinL ['\n']
              (stage4 (stage3 (stage2 (stage1
                (splitlinesL (sanitize_resume_text x))))))) from by
        rw [sanitize_resume_text]
        rw [if_neg (by simpa using hyne)]]
      have h1 : ∀ l ∈ lstripL l₁ :: rest, cutMatch l = false := by
        intro l hl
        rcases List.mem_cons.mp hl with hl0 | hlr
        · subst hl0
          rw [cutMatch_lstripL]
          exact (stage_out_matches_false
            (hmem_trim l₁ (List.mem_cons_self ..))).1
        · exact (stage_out_matches_false
            (hmem_trim l (List.mem_cons_of_mem _ hlr))).1
      have h2 : ∀ l ∈ lstripL l₁ :: rest, dropMatch l = false := by
        intro l hl
        rcases List.mem_cons.mp hl with hl0 | hlr
        · subst hl0
          rw [dropMatch_lstripL]
          exact (stage_out_matches_false
            (hmem_trim l₁ (List.mem_cons_self ..))).2
        · exact (stage_out_matches_false
            (hmem_trim l (List.mem_cons_of_mem _ hlr))).2
      rw [hsplit_y] at h3 ⊢
      rw [stage1_eq_self h1, stage2_eq_self h2]
      rw [stage3, h3, List.drop_zero]
      rw [show stage4 (lstripL l₁ :: rest) = lstripL l₁ :: rest from
        stage4Aux_eq_self _ 0 hz_good hokb_z]
      rw [stripL]
      rw [rstripL_joinL_good _ _ hzl hzl_ne hzl_r]
      rw [lstripL_joinL_head _ _ hzh_strip]
      rw [lstripL_idem]
      exact hyz.symm

/-- C7, counterexample: sanitizing twice differs from sanitizing once.  The
input is a blank line, 59 filler lines, a `Summary:` header and a body: in
the first pass the header sits at line 60, outside the 60-line preamble
scan, and the leading blank is removed by the final strip; in the second
pass the header has moved to line 59, the scan finds it and cuts the
preamble down to two lead-in lines. -/
theorem sanitize_not_idempotent_cex :
    sanitize_resume_text (sanitize_resume_text
        (joinL ['\n'] ([[]] ++ List.replicate 59 "x".data
          ++ ["Summary:".data, "body".data])))
      ≠ sanitize_resume_text
          (joinL ['\n'] ([[]] ++ List.replicate 59 "x".data
            ++ ["Summary:".data, "body".data])) := by
  decide

/-- Witness for `sanitize_idempotent_when_scan_stable` at
`"Summary:\nTest line"`, whose sanitized output is scan-stable. -/
theorem sanitize_idempotent_when_scan_stable_witness :
    stage3Start (splitlinesL
        (sanitize_resume_text "Summary:\nTest line".data)) = 0 ∧
    sanitize_resume_text (sanitize_resume_text "Summary:\nTest line".data)
      = sanitize_resume_text "Summary:\nTest line".data :=
  ⟨by decide,
    sanitize_idempotent_when_scan_stable "Summary:\nTest line".data
      (by decide)⟩

